import Mathlib

/-!
# terrafactor: the Terraform-like renderer of decoded JSON values

A shallow embedding of `terrafactor.go` (`Print`, `printData`, `printArray`) and the
properties of the rendered text.

Modelling conventions.

* A Go `string` is a Lean `String` (a valid UTF-8 text). `len(s)` is the number of bytes,
  `String.utf8ByteSize`. Go compares strings byte by byte; on UTF-8 text that order is the
  order of the code points, which `strLt` computes.
* The `interface{}` argument is a `Value`: JSON null (`nil`), a scalar (`string`, `float64`,
  `bool`), a `[]interface{}` or a `map[string]interface{}`. A map is the list of its entries
  in some iteration order; Go maps have pairwise distinct keys (`NodupKeys`).
* The `io.Writer` is a state `σ` and a `write` function that returns the next state and the
  error of the call. `fmt.Fprintf` formats its arguments and hands the text to `write` once.
-/

namespace Terrafactor

/-! ## Strings -/

/-- Lexicographic comparison of two texts by code point, the list form of Go's `a < b`. -/
def ltChars : List Char → List Char → Bool
  | _, [] => false
  | [], _ :: _ => true
  | c :: cs, d :: ds => decide (c.toNat < d.toNat) || (c.toNat == d.toNat && ltChars cs ds)

/-- Go's `a < b` on strings (byte-lexicographic; equal to code point order on UTF-8). -/
def strLt (a b : String) : Prop := ltChars a.data b.data = true

instance strLt.decidable : DecidableRel strLt := fun a b => by
  unfold strLt; infer_instance

/-- Go's `a <= b` on strings, written as `!(b < a)` the way `sort` uses its `Less`. -/
def strLe (a b : String) : Prop := ¬ strLt b a

instance strLe.decidable : DecidableRel strLe := fun a b => by
  unfold strLe; infer_instance

/-- The function `strings.Repeat(s, count)` for a non-negative count. -/
def stringsRepeat (s : String) (count : Nat) : String :=
  String.join (List.replicate count s)

/-- The function `sort.Strings`: the slice in ascending order. -/
def sortStrings (keys : List String) : List String :=
  keys.insertionSort strLe

/-! ## The decoded value -/

/-- A finite `float64`, held as the shortest decimal that reads back to it, the form
`strconv` formats from: `digits` are the significant digits `'0'..'9'` without leading or
trailing zero (none for zero) and the value is `0.digits × 10 ^ dp`. -/
structure Float64 where
  neg : Bool
  digits : List Char
  dp : Int
deriving DecidableEq, Repr

/-- A scalar of a decoded JSON document. -/
inductive Scalar where
  | str (s : String)
  | num (f : Float64)
  | bool (b : Bool)
deriving DecidableEq, Repr

/-- The dynamically typed tree that `Print` receives as `interface{}`. -/
inductive Value where
  | null
  | scalar (x : Scalar)
  | arr (xs : List Value)
  | obj (es : List (String × Value))

/-- Keys of a map are pairwise distinct. -/
def NodupKeys (es : List (String × Value)) : Prop := (es.map Prod.fst).Nodup

/-! ## Formatting of scalars: `fmt.Sprintf("%v", x)` -/

/-- Decimal digits of an exponent as `strconv` writes them in `%e`: at least two. -/
def expDigits (e : Nat) : String :=
  if e < 10 then String.mk [ '0', Nat.digitChar e]
  else if e < 100 then String.mk [Nat.digitChar (e / 10), Nat.digitChar (e % 10)]
  else String.mk [Nat.digitChar (e / 100), Nat.digitChar (e / 10 % 10), Nat.digitChar (e % 10)]

/-- The `%e` form of `strconv` with `prec` digits after the point. -/
def fmtE (f : Float64) (prec : Nat) : String :=
  let sign := if f.neg then "-" else ""
  let first := String.mk [f.digits.headD '0']
  let more :=
    if 0 < prec then
      let m := min f.digits.length (prec + 1)
      "." ++ String.mk ((f.digits.take m).drop 1) ++ stringsRepeat "0" (prec + 1 - max m 1)
    else ""
  let exp : Int := if f.digits.length = 0 then 0 else f.dp - 1
  let esign := if exp < 0 then "-" else "+"
  sign ++ first ++ more ++ "e" ++ esign ++ expDigits exp.natAbs

/-- The `%f` form of `strconv` with `prec` digits after the point. -/
def fmtF (f : Float64) (prec : Nat) : String :=
  let sign := if f.neg then "-" else ""
  let int :=
    if 0 < f.dp then
      let m := min f.digits.length f.dp.toNat
      String.mk (f.digits.take m) ++ stringsRepeat "0" (f.dp.toNat - m)
    else "0"
  let frac :=
    if 0 < prec then
      "." ++ String.mk ((List.range prec).map fun i =>
        let j : Int := f.dp + i
        if 0 ≤ j ∧ j < f.digits.length then f.digits.getD j.toNat '0' else '0')
    else ""
  sign ++ int ++ frac

/-- The verb `%v` on a `float64`: `strconv.FormatFloat(x, 'g', -1, 64)`. The shortest digits
are printed in `%e` form when the decimal exponent is below `-4` or at least `eprec`, which
is `6` for the shortest form, and in `%f` form otherwise. -/
def formatFloat (f : Float64) : String :=
  let eprec : Int := 6
  let exp : Int := f.dp - 1
  if exp < -4 ∨ exp ≥ eprec then fmtE f (f.digits.length - 1)
  else fmtF f ((f.digits.length : Int) - f.dp).toNat

/-- The text of `fmt.Sprintf("%v", x)` for a scalar: a string verbatim, a boolean as
`true` or `false`, a number by `formatFloat`. -/
def sprintV : Scalar → String
  | .str s => s
  | .num f => formatFloat f
  | .bool b => if b then "true" else "false"

/-- Drop the zeros at the end of a digit list. -/
def trimZeros (ds : List Char) : List Char :=
  (ds.reverse.dropWhile (· == '0')).reverse

/-- The `float64` of a natural number below `2 ^ 53` (every such number is a `float64` and
its shortest decimal is its own numeral without the trailing zeros). -/
def Float64.ofNat (n : Nat) : Float64 :=
  if n = 0 then ⟨false, [], 0⟩
  else ⟨false, trimZeros (Nat.toDigits 10 n), (Nat.toDigits 10 n).length⟩

/-- A JSON number literal `n` below `2 ^ 53` as decoded by `encoding/json`. From `2 ^ 53` on the
decoder rounds the literal to the nearest `float64`, whose digits this does not compute: no
statement below uses `Value.nat` there. -/
def Value.nat (n : Nat) : Value := .scalar (.num (Float64.ofNat n))

/-- A JSON string. -/
def Value.str (s : String) : Value := .scalar (.str s)

/-! ## The writer -/

/-- A Go `error`, held as its message. -/
abbrev Error := String

/-- An `io.Writer`: one call of `Write` takes the state of the sink and the bytes and gives
the next state and the error of the call (`none` is `nil`). -/
structure Writer (σ : Type) where
  write : σ → String → σ × Option Error

/-- The call `fmt.Fprintf(w, format, args...)` with `text` the formatted result: one `Write`
of the whole text. Every call site in `terrafactor.go` is an expression statement, so the
error is dropped there by taking the first component. -/
def Fprintf {σ : Type} (w : Writer σ) (s : σ) (text : String) : σ × Option Error :=
  w.write s text

/-! ## The renderer -/

/-- ANSI code that ends a colour. -/
def colorReset : String := "\x1b[0m"

/-- ANSI code for red. -/
def colorRed : String := "\x1b[31m"

/-- ANSI code for green. -/
def colorGreen : String := "\x1b[32m"

/-- The local `visiblePrefix` of `printData`. -/
def visiblePrefix : String := "+  "

/-- The local `prefixLength` of `printData`: `len(visiblePrefix)`. -/
def prefixLength : Nat := visiblePrefix.utf8ByteSize

/-- The closure `getIndent` of `printData` over `baseIndent`. -/
def getIndent (baseIndent : Nat) (hasPrefix : Bool) : String :=
  let adjustedIndent : Int :=
    if hasPrefix then
      if (baseIndent : Int) - prefixLength < 0 then 0 else (baseIndent : Int) - prefixLength
    else baseIndent
  stringsRepeat " " adjustedIndent.toNat

/-- The closure `getIndent` of `printArray` over `baseIndent`. -/
def getIndentArray (baseIndent : Nat) : String :=
  stringsRepeat " " baseIndent

/-- The `valStr` of a leaf: `(Unknown Value)` for `nil`, else `fmt.Sprintf("%v", value)`. -/
def valStr : Option Scalar → String
  | none => "(Unknown Value)"
  | some x => sprintV x

mutual
/-- The function `printData`. For a map the keys are sorted and the loop over them runs, for
each key, the body computed by `loopBodies` for the entry `v[key]`. -/
def printData {σ : Type} (data : Value) (indent : Nat) (pfx indentStr : String)
    (w : Writer σ) (s : σ) : σ × Option Error :=
  match data with
  | .obj v =>
      let keys := sortStrings (v.map Prod.fst)
      let bodies := loopBodies v indent pfx indentStr w
      (keys.foldl (fun s key =>
        match bodies.lookup key with
        | some body => body s
        | none => s) s, none)
  | .arr v => (printArray v indent pfx indentStr w s, none)
  | .null =>
      let indents := getIndent (indent * indentStr.utf8ByteSize) true
      ((Fprintf w s (indents ++ pfx ++ valStr none ++ "\n")).1, none)
  | .scalar x =>
      let indents := getIndent (indent * indentStr.utf8ByteSize) true
      ((Fprintf w s (indents ++ pfx ++ valStr (some x) ++ "\n")).1, none)
termination_by structural data
/-- The bodies of the loop `for _, key := range keys` of `printData`, one for each entry of
the map, under the key of the entry. -/
def loopBodies {σ : Type} (v : List (String × Value)) (indent : Nat) (pfx indentStr : String)
    (w : Writer σ) : List (String × (σ → σ)) :=
  match v with
  | [] => []
  | entry :: rest =>
      (entry.1, loopBody entry indent pfx indentStr w) :: loopBodies rest indent pfx indentStr w
termination_by structural v
/-- One pass of the loop of `printData` for `key` and `value := v[key]`: the inner
`switch value.(type)`. -/
def loopBody {σ : Type} (entry : String × Value) (indent : Nat) (pfx indentStr : String)
    (w : Writer σ) (s : σ) : σ :=
  match entry with
  | (key, .obj m) =>
      let indents := getIndent (indent * indentStr.utf8ByteSize) false
      let s1 := (Fprintf w s (indents ++ key ++ " \x7b\n")).1
      let s2 := (printData (.obj m) (indent + 1) pfx indentStr w s1).1
      (Fprintf w s2 (indents ++ "\x7d\n")).1
  | (key, .arr a) =>
      let indents := getIndent (indent * indentStr.utf8ByteSize) false
      let s1 := (Fprintf w s (indents ++ key ++ " [\n")).1
      let s2 := printArray a (indent + 1) pfx indentStr w s1
      (Fprintf w s2 (indents ++ "]\n")).1
  | (key, .null) =>
      let indents := getIndent (indent * indentStr.utf8ByteSize) (pfx != "")
      (Fprintf w s (indents ++ pfx ++ key ++ " = " ++ valStr none ++ "\n")).1
  | (key, .scalar x) =>
      let indents := getIndent (indent * indentStr.utf8ByteSize) (pfx != "")
      (Fprintf w s (indents ++ pfx ++ key ++ " = " ++ valStr (some x) ++ "\n")).1
termination_by structural entry
/-- The function `printArray`: the loop over the elements, in order. -/
def printArray {σ : Type} (data : List Value) (indent : Nat) (pfx indentStr : String)
    (w : Writer σ) (s : σ) : σ :=
  match data with
  | [] => s
  | elem :: rest =>
      let indents := getIndentArray (indent * indentStr.utf8ByteSize)
      let s' :=
        match elem with
        | .obj v =>
            if v.length = 1 then
              match v with
              | (key, .obj nestedMap) :: _ =>
                  let s1 := (Fprintf w s (indents ++ key ++ " \x7b\n")).1
                  let s2 := (printData (.obj nestedMap) (indent + 1) pfx indentStr w s1).1
                  (Fprintf w s2 (indents ++ "\x7d\n")).1
              | _ => s
            else
              let s1 := (Fprintf w s (indents ++ "\x7b\n")).1
              let s2 := (printData (.obj v) (indent + 1) pfx indentStr w s1).1
              (Fprintf w s2 (indents ++ "\x7d\n")).1
        | .arr v =>
            let s1 := (Fprintf w s (indents ++ "[\n")).1
            let s2 := printArray v (indent + 1) pfx indentStr w s1
            (Fprintf w s2 (indents ++ "]\n")).1
        | .null => (Fprintf w s (indents ++ pfx ++ valStr none ++ "\n")).1
        | .scalar x => (Fprintf w s (indents ++ pfx ++ valStr (some x) ++ "\n")).1
      printArray rest indent pfx indentStr w s'
termination_by structural data
end

/-- The error of `Print` for an operation tag that is neither `create` nor `destroy`. -/
def invalidOperation (operationTag : String) : Error :=
  "invalid operation: " ++ operationTag ++
    ". Supported operations are \x27create\x27 or \x27destroy\x27"

/-- The function `Print`: the state of the sink after the call and the returned error. -/
def Print {σ : Type} (data : Value) (operationTag indentStr : String) (w : Writer σ) (s : σ) :
    σ × Option Error :=
  if operationTag = "create" then
    printData data 0 (colorGreen ++ "+  " ++ colorReset) indentStr w s
  else if operationTag = "destroy" then
    printData data 0 (colorRed ++ "-  " ++ colorReset) indentStr w s
  else
    (s, some (invalidOperation operationTag))

/-! ## Sinks -/

/-- A sink that keeps everything and never fails, like `bytes.Buffer`. -/
def buffer : Writer String := ⟨fun b text => (b ++ text, none)⟩

/-- A sink that keeps the text of every `Write` call apart and never fails. -/
def recorder : Writer (List String) := ⟨fun calls text => (calls ++ [text], none)⟩

/-- A sink that rejects every `Write`, like a closed pipe; its state counts the calls. -/
def rejecting : Writer Nat := ⟨fun calls _ => (calls + 1, some "write rejected")⟩

/-! ## Notions used to state the properties -/

/-- A text of `n` space characters. -/
def spaces (n : Nat) : String := String.mk (List.replicate n ' ')

/-- The prefix that `Print` resolves the tag `create` to. -/
def createPrefix : String := "\x1b[32m+  \x1b[0m"

/-- The prefix that `Print` resolves the tag `destroy` to. -/
def destroyPrefix : String := "\x1b[31m-  \x1b[0m"

/-- All the `Write` calls of a list of texts, in order, each error dropped. -/
def writeAll {σ : Type} (w : Writer σ) (s : σ) (texts : List String) : σ :=
  texts.foldl (fun s text => (Fprintf w s text).1) s

/-- The `Write` calls that `printData` issues, in order. -/
def dataLines (data : Value) (indent : Nat) (pfx indentStr : String) : List String :=
  (printData data indent pfx indentStr recorder []).1

/-- The `Write` calls that `printArray` issues, in order. -/
def arrayLines (data : List Value) (indent : Nat) (pfx indentStr : String) : List String :=
  printArray data indent pfx indentStr recorder []

/-- The `Write` calls of one pass of the loop of `printData`. -/
def entryLines (entry : String × Value) (indent : Nat) (pfx indentStr : String) : List String :=
  loopBody entry indent pfx indentStr recorder []

/-- The calls of `printData` on any sink are its recorded calls, all of them, in order. -/
def FrameData (data : Value) : Prop :=
  ∀ (indent : Nat) (pfx indentStr : String) (σ : Type) (w : Writer σ) (s : σ),
    (printData data indent pfx indentStr w s).1
      = writeAll w s (dataLines data indent pfx indentStr)

/-- The calls of `printArray` on any sink are its recorded calls, all of them, in order. -/
def FrameArray (data : List Value) : Prop :=
  ∀ (indent : Nat) (pfx indentStr : String) (σ : Type) (w : Writer σ) (s : σ),
    printArray data indent pfx indentStr w s
      = writeAll w s (arrayLines data indent pfx indentStr)

/-- What the frame property of an element has to bring for the array around it. -/
def FrameElem (elem : Value) : Prop :=
  FrameData elem ∧ ∀ es, elem = .obj es → ∀ e ∈ es, FrameData e.2

/-- A leaf of the tree as a value: `nil` or a scalar. -/
def Value.ofLeaf : Option Scalar → Value
  | none => .null
  | some x => .scalar x

mutual
/-- Number of scalar and null leaves of a tree. -/
def Value.leaves : Value → Nat
  | .null => 1
  | .scalar _ => 1
  | .arr xs => leavesList xs
  | .obj es => leavesEntries es
/-- Number of leaves of the elements of an array. -/
def leavesList : List Value → Nat
  | [] => 0
  | x :: xs => x.leaves + leavesList xs
/-- Number of leaves of the values of a map. -/
def leavesEntries : List (String × Value) → Nat
  | [] => 0
  | (_, x) :: es => x.leaves + leavesEntries es
end

/-- Order of two entries of a map by their keys. -/
def entryLe (a b : String × Value) : Prop := strLe a.1 b.1

instance entryLe.decidable : DecidableRel entryLe := fun a b => by
  unfold entryLe; infer_instance

/-- Number of visible characters of a text on a terminal: the characters outside the ANSI
sequences, each of which starts at `ESC` and ends at the next `m`. `inEscape` tells whether
the text begins inside a sequence. -/
def visibleWidthFrom : Bool → List Char → Nat
  | _, [] => 0
  | true, c :: cs => if c = 'm' then visibleWidthFrom false cs else visibleWidthFrom true cs
  | false, c :: cs =>
      if c = '\x1b' then visibleWidthFrom true cs else 1 + visibleWidthFrom false cs

/-- The visible width of a text: the column at which the text behind it begins. -/
def visibleWidth (s : String) : Nat := visibleWidthFrom false s.data

/-- Number of places of a text at which the pattern `pat` begins. -/
def occurrences (pat : List Char) : List Char → Nat
  | [] => if pat.isPrefixOf [] then 1 else 0
  | c :: cs => (if pat.isPrefixOf (c :: cs) then 1 else 0) + occurrences pat cs

/-- The `float64` of an integer of absolute value below `2 ^ 53`. -/
def Float64.ofInt (n : Int) : Float64 :=
  { Float64.ofNat n.natAbs with neg := decide (n < 0) }

/-- The rendering of `data` is the same with the indent units `i` and `j`. -/
def SameUnitData (i j : String) (data : Value) : Prop :=
  ∀ (indent : Nat) (pfx : String) (σ : Type) (w : Writer σ) (s : σ),
    (printData data indent pfx i w s).1 = (printData data indent pfx j w s).1

/-- What `SameUnitData` of an element has to bring for the array around it. -/
def SameUnitElem (i j : String) (elem : Value) : Prop :=
  SameUnitData i j elem ∧ ∀ es, elem = .obj es → ∀ e ∈ es, SameUnitData i j e.2

/-- Two trees are the same JSON value: the same null or scalar, arrays with the same values
at the same places, maps with the same keys and, under each key, the same value; the order
in which the entries of a map are stored does not count. -/
inductive SameJSON : Value → Value → Prop
  | null : SameJSON .null .null
  | scalar (x : Scalar) : SameJSON (.scalar x) (.scalar x)
  | arr (xs ys : List Value) (hlen : xs.length = ys.length)
      (h : ∀ (n : Nat) (x y : Value), xs[n]? = some x → ys[n]? = some y → SameJSON x y) :
      SameJSON (.arr xs) (.arr ys)
  | obj (es es' : List (String × Value))
      (hkeys : (es.map Prod.fst).Perm (es'.map Prod.fst))
      (h : ∀ (k : String) (x y : Value), (k, x) ∈ es → (k, y) ∈ es' → SameJSON x y) :
      SameJSON (.obj es) (.obj es')

/-- A tree is well formed when the keys of each of its maps are pairwise distinct, as they
are in a Go map. -/
inductive WellFormed : Value → Prop
  | null : WellFormed .null
  | scalar (x : Scalar) : WellFormed (.scalar x)
  | arr (xs : List Value) (h : ∀ x ∈ xs, WellFormed x) : WellFormed (.arr xs)
  | obj (es : List (String × Value)) (hnd : NodupKeys es) (h : ∀ e ∈ es, WellFormed e.2) :
      WellFormed (.obj es)

/-- Two trees are written alike in each place where a value can stand: by itself, as an
element of an array, under a key of a map. -/
def SameLines (a b : Value) : Prop :=
  (∀ (d : Nat) (pfx i : String), dataLines a d pfx i = dataLines b d pfx i)
  ∧ (∀ (d : Nat) (pfx i : String), arrayLines [a] d pfx i = arrayLines [b] d pfx i)
  ∧ (∀ (k : String) (d : Nat) (pfx i : String),
      entryLines (k, a) d pfx i = entryLines (k, b) d pfx i)

/-- A JSON integer literal `n` of absolute value below `2 ^ 53` as decoded by
`encoding/json`. -/
def Value.int (n : Int) : Value := .scalar (.num (Float64.ofInt n))

/-! ## The order of the keys -/

theorem ltChars_irrefl (a : List Char) : ltChars a a = false := by
  induction a with
  | nil => rfl
  | cons c cs ih => simp [ltChars, ih]

theorem ltChars_trans : ∀ (a b c : List Char), ltChars a b = true → ltChars b c = true →
    ltChars a c = true
  | _, [], _, h, _ => by cases ‹List Char› <;> simp [ltChars] at h
  | _, _ :: _, [], _, h => by simp [ltChars] at h
  | [], _ :: _, _ :: _, _, _ => by simp [ltChars]
  | x :: xs, y :: ys, z :: zs, h1, h2 => by
    simp only [ltChars, Bool.or_eq_true, decide_eq_true_eq, Bool.and_eq_true, beq_iff_eq] at *
    rcases h1 with h1 | ⟨h1, h1'⟩ <;> rcases h2 with h2 | ⟨h2, h2'⟩
    · left; omega
    · left; omega
    · left; omega
    · right; exact ⟨by omega, ltChars_trans xs ys zs h1' h2'⟩

theorem ltChars_connex : ∀ (a b : List Char), ltChars a b = false → ltChars b a = false → a = b
  | [], [], _, _ => rfl
  | [], _ :: _, h, _ => by simp [ltChars] at h
  | _ :: _, [], _, h => by simp [ltChars] at h
  | x :: xs, y :: ys, h1, h2 => by
    simp only [ltChars, Bool.or_eq_false_iff, decide_eq_false_iff_not, Bool.and_eq_false_imp,
      beq_iff_eq] at h1 h2
    have hxy : x.toNat = y.toNat := by omega
    have hx : x = y := by
      apply Char.ext
      apply UInt32.ext  
      exact hxy
    subst hx
    rw [ltChars_connex xs ys (h1.2 rfl) (h2.2 rfl)]

theorem strLt_irrefl (a : String) : ¬ strLt a a := by
  simp [strLt, ltChars_irrefl]

theorem strLt_trans {a b c : String} (h1 : strLt a b) (h2 : strLt b c) : strLt a c :=
  ltChars_trans _ _ _ h1 h2

theorem strLt_connex {a b : String} (h1 : ¬ strLt a b) (h2 : ¬ strLt b a) : a = b := by
  apply String.ext
  exact ltChars_connex _ _ (by simpa [strLt] using h1) (by simpa [strLt] using h2)

theorem strLt_asymm {a b : String} (h1 : strLt a b) : ¬ strLt b a :=
  fun h2 => strLt_irrefl a (strLt_trans h1 h2)

theorem char_lt_iff (c d : Char) : c < d ↔ c.toNat < d.toNat := Iff.rfl

theorem char_toNat_inj {c d : Char} (h : c.toNat = d.toNat) : c = d :=
  Char.ext (UInt32.ext h)

theorem ltChars_iff_lt : ∀ (a b : List Char), ltChars a b = true ↔ a < b
  | _, [] => by
    constructor
    · intro h; cases ‹List Char› <;> simp [ltChars] at h
    · intro h; cases h
  | [], d :: ds => by
    simp only [ltChars, true_iff]
    exact List.Lex.nil
  | c :: cs, d :: ds => by
    simp only [ltChars, Bool.or_eq_true, decide_eq_true_eq, Bool.and_eq_true, beq_iff_eq]
    constructor
    · rintro (h | ⟨h, h'⟩)
      · exact List.Lex.rel ((char_lt_iff c d).2 h)
      · have hcd := char_toNat_inj h
        subst hcd
        exact List.Lex.cons ((ltChars_iff_lt cs ds).1 h')
    · intro h
      cases h with
      | rel h => exact Or.inl ((char_lt_iff c d).1 h)
      | cons h => exact Or.inr ⟨rfl, (ltChars_iff_lt cs ds).2 h⟩

/-- The order `strLt` is the lexicographic order of the library on strings. -/
theorem strLt_iff_lt (a b : String) : strLt a b ↔ a < b := by
  rw [String.lt_iff_toList_lt]
  exact ltChars_iff_lt a.data b.data

instance strLe.isTotal : IsTotal String strLe :=
  ⟨fun a b => by
    by_cases h : strLt b a
    · exact Or.inr (strLt_asymm h)
    · exact Or.inl h⟩

instance strLe.isTrans : IsTrans String strLe :=
  ⟨fun a b c hab hbc hca => by
    by_cases h : strLt b a
    · exact hab h
    · by_cases h' : strLt a b
      · exact hbc (strLt_trans hca h')
      · have := strLt_connex h' h
        subst this
        exact hbc hca⟩

instance strLe.isAntisymm : IsAntisymm String strLe :=
  ⟨fun _ _ hab hba => strLt_connex hba hab⟩

/-! ## Every sink receives the same calls -/

theorem loopBodies_eq_map {σ : Type} (v : List (String × Value)) (indent : Nat)
    (pfx indentStr : String) (w : Writer σ) :
    loopBodies v indent pfx indentStr w
      = v.map (fun entry => (entry.1, loopBody entry indent pfx indentStr w)) := by
  induction v with
  | nil => simp [loopBodies]
  | cons e rest ih => simp [loopBodies, ih]

theorem writeAll_append {σ : Type} (w : Writer σ) (s : σ) (a b : List String) :
    writeAll w s (a ++ b) = writeAll w (writeAll w s a) b := by
  simp [writeAll, List.foldl_append]

theorem writeAll_recorder (acc texts : List String) :
    writeAll recorder acc texts = acc ++ texts := by
  induction texts generalizing acc with
  | nil => simp [writeAll]
  | cons t ts ih =>
    have := ih (acc ++ [t])
    simp [writeAll, Fprintf, recorder] at this ⊢
    exact this


theorem writeAll_singleton {σ : Type} (w : Writer σ) (s : σ) (t : String) :
    writeAll w s [t] = (Fprintf w s t).1 := rfl

theorem Fprintf_recorder (acc : List String) (t : String) :
    (Fprintf recorder acc t).1 = acc ++ [t] := rfl



/-- Induction over a value: a property of null and of the scalars that passes from the
elements to the array and from the values of the entries to the map holds of every value. -/
theorem Value.induct {P : Value → Prop} (hnull : P .null) (hscalar : ∀ x, P (.scalar x))
    (harr : ∀ xs, (∀ x ∈ xs, P x) → P (.arr xs))
    (hobj : ∀ es, (∀ e ∈ es, P e.2) → P (.obj es)) : ∀ v, P v :=
  @Value.rec P (fun xs => ∀ x ∈ xs, P x) (fun es => ∀ e ∈ es, P e.2) (fun e => P e.2)
    hnull hscalar harr hobj
    (by simp)
    (fun x xs hx hxs y hy => by
      rcases List.mem_cons.1 hy with h | h
      · exact h ▸ hx
      · exact hxs y h)
    (by simp)
    (fun e es he hes y hy => by
      rcases List.mem_cons.1 hy with h | h
      · exact h ▸ he
      · exact hes y h)
    (fun _ v hv => hv)

theorem loopBody_frame (key : String) (value : Value) (h : FrameData value)
    (indent : Nat) (pfx indentStr : String) (σ : Type) (w : Writer σ) (s : σ) :
    loopBody (key, value) indent pfx indentStr w s
      = writeAll w s (entryLines (key, value) indent pfx indentStr) := by
  cases value with
  | null => simp only [entryLines, loopBody, Fprintf_recorder, List.nil_append, writeAll_singleton]
  | scalar x =>
    simp only [entryLines, loopBody, Fprintf_recorder, List.nil_append, writeAll_singleton]
  | arr a =>
    have ha : ∀ (σ : Type) (w : Writer σ) (s : σ), printArray a (indent + 1) pfx indentStr w s
        = writeAll w s (arrayLines a (indent + 1) pfx indentStr) :=
      fun σ w s => h (indent + 1) pfx indentStr σ w s
    simp only [entryLines, loopBody]
    rw [ha σ w, ha _ recorder]
    simp only [writeAll_recorder, Fprintf_recorder, List.nil_append,
        writeAll_append, writeAll_singleton]
  | obj m =>
    have hm := h (indent + 1) pfx indentStr
    simp only [entryLines, loopBody]
    rw [hm σ w, hm _ recorder]
    simp only [writeAll_recorder, Fprintf_recorder, List.nil_append,
        writeAll_append, writeAll_singleton]


theorem lookup_loopBodies {σ : Type} (v : List (String × Value)) (indent : Nat)
    (pfx indentStr : String) (w : Writer σ) (key : String) :
    (loopBodies v indent pfx indentStr w).lookup key
      = (v.lookup key).map (fun value => loopBody (key, value) indent pfx indentStr w) := by
  induction v with
  | nil => simp [loopBodies]
  | cons e rest ih =>
    obtain ⟨k, value⟩ := e
    simp only [loopBodies, List.lookup]
    by_cases hk : key = k
    · subst hk; simp
    · have : (key == k) = false := by simpa using hk
      simp only [this, ih]

/-- The map case of `printData` read with `value := v[key]`. -/
theorem printData_obj {σ : Type} (v : List (String × Value)) (indent : Nat)
    (pfx indentStr : String) (w : Writer σ) (s : σ) :
    (printData (.obj v) indent pfx indentStr w s).1
      = (sortStrings (v.map Prod.fst)).foldl (fun s key =>
          match v.lookup key with
          | some value => loopBody (key, value) indent pfx indentStr w s
          | none => s) s := by
  simp only [printData]
  congr 1
  funext s key
  rw [lookup_loopBodies]
  cases v.lookup key <;> rfl

theorem foldl_recorded (keys : List String) (fr : List String → String → List String)
    (h : ∀ key acc, fr acc key = acc ++ fr [] key) (acc : List String) :
    keys.foldl fr acc = acc ++ keys.foldl fr [] := by
  induction keys generalizing acc with
  | nil => simp
  | cons k ks ih =>
    simp only [List.foldl_cons]
    rw [ih (fr acc k), ih (fr [] k), h k acc, List.append_assoc]

theorem foldl_frame {σ : Type} (w : Writer σ) (keys : List String) (fw : σ → String → σ)
    (fr : List String → String → List String)
    (h1 : ∀ key s, fw s key = writeAll w s (fr [] key))
    (h2 : ∀ key acc, fr acc key = acc ++ fr [] key) (s : σ) :
    keys.foldl fw s = writeAll w s (keys.foldl fr []) := by
  induction keys generalizing s with
  | nil => simp [writeAll]
  | cons k ks ih =>
    simp only [List.foldl_cons]
    rw [ih, foldl_recorded ks fr h2 (fr [] k), writeAll_append, h1]

theorem mem_of_lookup (v : List (String × Value)) (key : String) (value : Value)
    (h : v.lookup key = some value) : (key, value) ∈ v := by
  induction v with
  | nil => simp at h
  | cons e rest ih =>
    obtain ⟨k, x⟩ := e
    simp only [List.lookup] at h
    by_cases hk : key = k
    · subst hk; simp at h; simp [h]
    · have : (key == k) = false := by simpa using hk
      simp only [this] at h
      exact List.mem_cons_of_mem _ (ih h)

theorem printData_obj_frame (v : List (String × Value)) (h : ∀ e ∈ v, FrameData e.2) :
    FrameData (.obj v) := by
  intro indent pfx indentStr σ w s
  have hbody : ∀ (τ : Type) (u : Writer τ) (key : String) (t : τ),
      (match v.lookup key with
        | some value => loopBody (key, value) indent pfx indentStr u t
        | none => t)
      = writeAll u t (match v.lookup key with
        | some value => loopBody (key, value) indent pfx indentStr recorder []
        | none => []) := by
    intro τ u key t
    cases hl : v.lookup key with
    | none => simp [writeAll]
    | some value =>
      exact loopBody_frame key value (h _ (mem_of_lookup v key value hl)) indent pfx indentStr τ u t
  rw [dataLines, printData_obj, printData_obj]
  refine foldl_frame w _ _ _ (fun key s => ?_) (fun key acc => ?_) s
  · exact hbody σ w key s
  · have := hbody _ recorder key acc
    rw [writeAll_recorder] at this
    exact this


theorem shape_cases (v : List (String × Value)) :
    (∃ key nestedMap tail, v = (key, Value.obj nestedMap) :: tail) ∨
    (∀ (key : String) (nestedMap tail : List (String × Value)),
      v = (key, Value.obj nestedMap) :: tail → False) := by
  by_cases h : ∃ key nestedMap tail, v = (key, Value.obj nestedMap) :: tail
  · exact Or.inl h
  · exact Or.inr (fun key nestedMap tail hv => h ⟨key, nestedMap, tail, hv⟩)

/-- The loop of `printArray` runs the first element and then the rest. -/
theorem printArray_cons {σ : Type} (elem : Value) (rest : List Value) (indent : Nat)
    (pfx indentStr : String) (w : Writer σ) (s : σ) :
    printArray (elem :: rest) indent pfx indentStr w s
      = printArray rest indent pfx indentStr w (printArray [elem] indent pfx indentStr w s) := by
  cases elem with
  | null => rfl
  | scalar x => rfl
  | arr v => rfl
  | obj v =>
    rcases shape_cases v with ⟨key, nestedMap, tail, rfl⟩ | h
    · rfl
    · rw [printArray.eq_3 _ _ _ _ _ _ _ h, printArray.eq_3 _ _ _ _ _ _ _ h, printArray.eq_1]

/-- The loop of `printArray` over two slices one after the other. -/
theorem printArray_append {σ : Type} (xs ys : List Value) (indent : Nat)
    (pfx indentStr : String) (w : Writer σ) (s : σ) :
    printArray (xs ++ ys) indent pfx indentStr w s
      = printArray ys indent pfx indentStr w (printArray xs indent pfx indentStr w s) := by
  induction xs generalizing s with
  | nil => rfl
  | cons x xs ih =>
    rw [List.cons_append, printArray_cons, ih, printArray_cons x xs]

/-- An element `nil` of an array: one line with the prefix. -/
theorem printArray_null {σ : Type} (indent : Nat) (pfx indentStr : String) (w : Writer σ)
    (s : σ) :
    printArray [.null] indent pfx indentStr w s
      = (Fprintf w s (getIndentArray (indent * indentStr.utf8ByteSize) ++ pfx
          ++ "(Unknown Value)" ++ "\n")).1 := rfl

/-- A scalar element of an array: one line with the prefix. -/
theorem printArray_scalar {σ : Type} (x : Scalar) (indent : Nat) (pfx indentStr : String)
    (w : Writer σ) (s : σ) :
    printArray [.scalar x] indent pfx indentStr w s
      = (Fprintf w s (getIndentArray (indent * indentStr.utf8ByteSize) ++ pfx
          ++ sprintV x ++ "\n")).1 := rfl

/-- An array element of an array: a bracket block. -/
theorem printArray_arr {σ : Type} (v : List Value) (indent : Nat) (pfx indentStr : String)
    (w : Writer σ) (s : σ) :
    printArray [.arr v] indent pfx indentStr w s
      = (Fprintf w (printArray v (indent + 1) pfx indentStr w
          (Fprintf w s (getIndentArray (indent * indentStr.utf8ByteSize) ++ "[\n")).1)
          (getIndentArray (indent * indentStr.utf8ByteSize) ++ "]\n")).1 := rfl

/-- A map element with one key whose value is a map: the block named by the key. -/
theorem printArray_wrapper {σ : Type} (key : String) (nestedMap : List (String × Value))
    (indent : Nat) (pfx indentStr : String) (w : Writer σ) (s : σ) :
    printArray [.obj [(key, .obj nestedMap)]] indent pfx indentStr w s
      = (Fprintf w (printData (.obj nestedMap) (indent + 1) pfx indentStr w
          (Fprintf w s (getIndentArray (indent * indentStr.utf8ByteSize) ++ key ++ " \x7b\n")).1).1
          (getIndentArray (indent * indentStr.utf8ByteSize) ++ "\x7d\n")).1 := rfl

/-- A map element with one key whose value is not a map: no call at all. -/
theorem printArray_single_other {σ : Type} (key : String) (value : Value)
    (hvalue : ∀ m, value ≠ .obj m)
    (indent : Nat) (pfx indentStr : String) (w : Writer σ) (s : σ) :
    printArray [.obj [(key, value)]] indent pfx indentStr w s = s := by
  cases value with
  | obj m => exact absurd rfl (hvalue m)
  | null => rfl
  | scalar x => rfl
  | arr a => rfl

/-- A map element with no key or with several keys: the anonymous block. -/
theorem printArray_block {σ : Type} (v : List (String × Value)) (hlen : v.length ≠ 1)
    (indent : Nat) (pfx indentStr : String) (w : Writer σ) (s : σ) :
    printArray [.obj v] indent pfx indentStr w s
      = (Fprintf w (printData (.obj v) (indent + 1) pfx indentStr w
          (Fprintf w s (getIndentArray (indent * indentStr.utf8ByteSize) ++ "\x7b\n")).1).1
          (getIndentArray (indent * indentStr.utf8ByteSize) ++ "\x7d\n")).1 := by
  rcases shape_cases v with ⟨key, nestedMap, tail, rfl⟩ | h
  · rw [printArray.eq_2, if_neg hlen, printArray.eq_1]
  · rw [printArray.eq_3 _ _ _ _ _ _ _ h, if_neg hlen, printArray.eq_1]

theorem frameArray_of_frameData (xs : List Value) (h : FrameData (.arr xs)) : FrameArray xs :=
  fun indent pfx indentStr σ w s => h indent pfx indentStr σ w s

theorem printArray_single_frame (elem : Value) (h : FrameElem elem) : FrameArray [elem] := by
  intro indent pfx indentStr σ w s
  cases elem with
  | null =>
    simp only [arrayLines, printArray_null, Fprintf_recorder, List.nil_append, writeAll_singleton]
  | scalar x =>
    simp only [arrayLines, printArray_scalar, Fprintf_recorder, List.nil_append,
      writeAll_singleton]
  | arr v =>
    have hv := frameArray_of_frameData v h.1 (indent + 1) pfx indentStr
    simp only [arrayLines, printArray_arr]
    rw [hv σ w, hv _ recorder]
    simp only [writeAll_recorder, Fprintf_recorder, List.nil_append,
        writeAll_append, writeAll_singleton]
  | obj v =>
    by_cases hlen : v.length = 1
    · match v, hlen with
      | [(key, value)], _ =>
        by_cases hvalue : ∃ m, value = .obj m
        · obtain ⟨m, rfl⟩ := hvalue
          have hm := h.2 _ rfl (key, .obj m) (by simp) (indent + 1) pfx indentStr
          simp only [arrayLines, printArray_wrapper]
          rw [hm σ w, hm _ recorder]
          simp only [writeAll_recorder, Fprintf_recorder, List.nil_append,
            writeAll_append, writeAll_singleton]
        · have hne : ∀ m, value ≠ .obj m := fun m hm => hvalue ⟨m, hm⟩
          simp only [arrayLines, printArray_single_other key value hne]
          rfl
    · have hv := h.1 (indent + 1) pfx indentStr
      simp only [arrayLines, printArray_block v hlen]
      rw [hv σ w, hv _ recorder]
      simp only [writeAll_recorder, Fprintf_recorder, List.nil_append,
        writeAll_append, writeAll_singleton]

theorem printArray_frame_of (xs : List Value) (h : ∀ x ∈ xs, FrameElem x) : FrameArray xs := by
  induction xs with
  | nil => intro indent pfx indentStr σ w s; rfl
  | cons x xs ih =>
    intro indent pfx indentStr σ w s
    have hx := printArray_single_frame x (h x (by simp)) indent pfx indentStr
    have hxs := ih (fun y hy => h y (List.mem_cons_of_mem _ hy)) indent pfx indentStr
    rw [arrayLines, printArray_cons, printArray_cons x xs, hxs σ w, hxs _ recorder,
      hx σ w, hx _ recorder]
    simp only [writeAll_recorder, List.nil_append, writeAll_append]

theorem frameElem_all : ∀ v, FrameElem v := by
  refine Value.induct ?_ ?_ ?_ ?_
  · refine ⟨fun indent pfx indentStr σ w s => ?_, fun es h => by cases h⟩
    simp only [dataLines, printData, Fprintf_recorder, List.nil_append, writeAll_singleton]
  · intro x
    refine ⟨fun indent pfx indentStr σ w s => ?_, fun es h => by cases h⟩
    simp only [dataLines, printData, Fprintf_recorder, List.nil_append, writeAll_singleton]
  · intro xs h
    refine ⟨fun indent pfx indentStr σ w s => ?_, fun es h => by cases h⟩
    have := printArray_frame_of xs h indent pfx indentStr σ w s
    simpa only [dataLines, printData, arrayLines] using this
  · intro es h
    refine ⟨printData_obj_frame es (fun e he => (h e he).1), fun es' h' => ?_⟩
    cases h'
    exact fun e he => (h e he).1

/-- Every sink receives from `printData` the recorded calls, all of them and in order,
whatever its `Write` returns. -/
theorem printData_frame {σ : Type} (data : Value) (indent : Nat) (pfx indentStr : String)
    (w : Writer σ) (s : σ) :
    printData data indent pfx indentStr w s
      = (writeAll w s (dataLines data indent pfx indentStr), none) := by
  have h1 := (frameElem_all data).1 indent pfx indentStr σ w s
  have h2 : (printData data indent pfx indentStr w s).2 = none := by
    cases data <;> simp only [printData]
  exact Prod.ext h1 h2

/-- Every sink receives from `printArray` the recorded calls, all of them and in order. -/
theorem printArray_frame {σ : Type} (data : List Value) (indent : Nat) (pfx indentStr : String)
    (w : Writer σ) (s : σ) :
    printArray data indent pfx indentStr w s
      = writeAll w s (arrayLines data indent pfx indentStr) :=
  printArray_frame_of data (fun x _ => frameElem_all x) indent pfx indentStr σ w s

instance entryLe.isTotal : IsTotal (String × Value) entryLe :=
  ⟨fun a b => strLe.isTotal.total a.1 b.1⟩

instance entryLe.isTrans : IsTrans (String × Value) entryLe :=
  ⟨fun a b c hab hbc => strLe.isTrans.trans a.1 b.1 c.1 hab hbc⟩

/-! ## Maps are rendered in the order of their keys -/

theorem strLe_of_strLt {a b : String} (h : strLt a b) : strLe a b := strLt_asymm h

theorem sortStrings_eq_of_sorted (keys sortedKeys : List String) (hperm : sortedKeys.Perm keys)
    (hs : sortedKeys.Pairwise strLt) : sortStrings keys = sortedKeys := by
  apply List.eq_of_perm_of_sorted (r := strLe)
  · exact (List.perm_insertionSort strLe keys).trans hperm.symm
  · exact List.sorted_insertionSort strLe keys
  · exact hs.imp strLe_of_strLt

theorem nodupKeys_of_sorted (v sorted : List (String × Value)) (hperm : sorted.Perm v)
    (hs : sorted.Pairwise (fun a b => strLt a.1 b.1)) : NodupKeys v := by
  have h1 : (sorted.map Prod.fst).Nodup := by
    rw [List.Nodup, List.pairwise_map]
    exact hs.imp (fun {a b} (hab : strLt a.1 b.1) (heq : a.1 = b.1) =>
      strLt_irrefl a.1 (by rw [← heq] at hab; exact hab))
  exact (hperm.map Prod.fst).nodup_iff.1 h1

theorem lookup_of_mem (v : List (String × Value)) (hnd : NodupKeys v) (e : String × Value)
    (he : e ∈ v) : v.lookup e.1 = some e.2 := by
  induction v with
  | nil => simp at he
  | cons x rest ih =>
    obtain ⟨k, value⟩ := x
    have hnd' : k ∉ rest.map Prod.fst ∧ (rest.map Prod.fst).Nodup := by
      simpa [NodupKeys] using hnd
    rcases List.mem_cons.1 he with h | h
    · subst h; simp [List.lookup]
    · have hne : e.1 ≠ k := fun hk => hnd'.1 (hk ▸ List.mem_map_of_mem Prod.fst h)
      have : (e.1 == k) = false := by simpa using hne
      simp only [List.lookup, this]
      exact ih hnd'.2 h

theorem foldl_congr_mem {α β : Type} (l : List β) (f g : α → β → α)
    (h : ∀ a, ∀ b ∈ l, f a b = g a b) (a : α) : l.foldl f a = l.foldl g a := by
  induction l generalizing a with
  | nil => rfl
  | cons b l ih =>
    simp only [List.foldl_cons]
    rw [h a b (by simp), ih (fun a b hb => h a b (List.mem_cons_of_mem _ hb))]

/-- The loop of `printData` over a map is the loop bodies of its entries, run in the order
of the keys. -/
theorem printData_obj_sorted {σ : Type} (v sorted : List (String × Value))
    (hperm : sorted.Perm v) (hs : sorted.Pairwise (fun a b => strLt a.1 b.1))
    (indent : Nat) (pfx indentStr : String) (w : Writer σ) (s : σ) :
    (printData (.obj v) indent pfx indentStr w s).1
      = sorted.foldl (fun s e => loopBody e indent pfx indentStr w s) s := by
  have hnd := nodupKeys_of_sorted v sorted hperm hs
  have hkeys : sortStrings (v.map Prod.fst) = sorted.map Prod.fst :=
    sortStrings_eq_of_sorted _ _ (hperm.map Prod.fst) (List.pairwise_map.2 hs)
  rw [printData_obj, hkeys, List.foldl_map]
  apply foldl_congr_mem
  intro a e he
  rw [lookup_of_mem v hnd e (hperm.subset he)]

theorem loopBody_recorder (e : String × Value) (indent : Nat) (pfx indentStr : String)
    (acc : List String) :
    loopBody e indent pfx indentStr recorder acc = acc ++ entryLines e indent pfx indentStr := by
  have := loopBody_frame e.1 e.2 (frameElem_all e.2).1 indent pfx indentStr _ recorder acc
  rw [writeAll_recorder] at this
  exact this

theorem foldl_loopBody_recorder (l : List (String × Value)) (indent : Nat)
    (pfx indentStr : String) (acc : List String) :
    l.foldl (fun s e => loopBody e indent pfx indentStr recorder s) acc
      = acc ++ (l.map (fun e => entryLines e indent pfx indentStr)).flatten := by
  induction l generalizing acc with
  | nil => simp
  | cons e l ih =>
    simp only [List.foldl_cons, List.map_cons, List.flatten_cons]
    rw [ih, loopBody_recorder, List.append_assoc]

/-- The calls for a map are the calls for its entries, entry after entry in the order of
the keys. -/
theorem dataLines_obj_sorted (v sorted : List (String × Value))
    (hperm : sorted.Perm v) (hs : sorted.Pairwise (fun a b => strLt a.1 b.1))
    (indent : Nat) (pfx indentStr : String) :
    dataLines (.obj v) indent pfx indentStr
      = (sorted.map (fun e => entryLines e indent pfx indentStr)).flatten := by
  rw [dataLines, printData_obj_sorted v sorted hperm hs, foldl_loopBody_recorder, List.nil_append]

/-- The entries of a map with distinct keys can be put in the strict order of the keys. -/
theorem exists_sorted_entries (v : List (String × Value)) (hnd : NodupKeys v) :
    ∃ sorted : List (String × Value),
      sorted.Perm v ∧ sorted.Pairwise (fun a b => strLt a.1 b.1) := by
  refine ⟨v.insertionSort entryLe, List.perm_insertionSort entryLe v, ?_⟩
  have hsorted : (v.insertionSort entryLe).Pairwise entryLe := List.sorted_insertionSort entryLe v
  have hne : (v.insertionSort entryLe).Pairwise (fun a b => a.1 ≠ b.1) := by
    have : ((v.insertionSort entryLe).map Prod.fst).Nodup :=
      ((List.perm_insertionSort entryLe v).map Prod.fst).nodup_iff.2 hnd
    exact List.pairwise_map.1 this
  refine (hsorted.and hne).imp ?_
  intro a b hab
  by_contra hlt
  exact hab.2 (strLt_connex hlt hab.1)

/-- The calls for a map do not depend on the order in which its entries are stored. -/
theorem dataLines_obj_perm (v v' : List (String × Value)) (hnd : NodupKeys v)
    (hperm : v'.Perm v) (indent : Nat) (pfx indentStr : String) :
    dataLines (.obj v') indent pfx indentStr = dataLines (.obj v) indent pfx indentStr := by
  obtain ⟨sorted, hp, hs⟩ := exists_sorted_entries v hnd
  rw [dataLines_obj_sorted v sorted hp hs, dataLines_obj_sorted v' sorted (hp.trans hperm.symm) hs]

/-! ## Indentation and single lines -/

theorem stringsRepeat_space (n : Nat) : stringsRepeat " " n = spaces n := by
  rw [stringsRepeat, spaces, String.join_eq]
  congr 1
  induction n with
  | zero => rfl
  | succ n ih => simp only [List.replicate_succ, List.map_cons, List.flatten_cons, ih]; rfl

theorem getIndentArray_eq (baseIndent : Nat) : getIndentArray baseIndent = spaces baseIndent :=
  stringsRepeat_space baseIndent

theorem getIndent_false (baseIndent : Nat) : getIndent baseIndent false = spaces baseIndent := by
  simp [getIndent, stringsRepeat_space]

theorem getIndent_true (baseIndent : Nat) :
    getIndent baseIndent true = spaces (baseIndent - 3) := by
  have h3 : prefixLength = 3 := rfl
  simp only [getIndent, stringsRepeat_space, h3, if_true]
  congr 1
  split <;> omega

theorem spaces_zero : spaces 0 = "" := rfl

theorem arrayLines_nil (indent : Nat) (pfx indentStr : String) :
    arrayLines [] indent pfx indentStr = [] := rfl

theorem arrayLines_append (xs ys : List Value) (indent : Nat) (pfx indentStr : String) :
    arrayLines (xs ++ ys) indent pfx indentStr
      = arrayLines xs indent pfx indentStr ++ arrayLines ys indent pfx indentStr := by
  rw [arrayLines, printArray_append, printArray_frame, writeAll_recorder]
  rfl

theorem arrayLines_cons (x : Value) (xs : List Value) (indent : Nat) (pfx indentStr : String) :
    arrayLines (x :: xs) indent pfx indentStr
      = arrayLines [x] indent pfx indentStr ++ arrayLines xs indent pfx indentStr :=
  arrayLines_append [x] xs indent pfx indentStr

theorem printData_recorder (data : Value) (indent : Nat) (pfx indentStr : String)
    (acc : List String) :
    (printData data indent pfx indentStr recorder acc).1
      = acc ++ dataLines data indent pfx indentStr := by
  rw [printData_frame, writeAll_recorder]

theorem arrayLines_leaf (x : Option Scalar) (indent : Nat) (pfx indentStr : String) :
    arrayLines [Value.ofLeaf x] indent pfx indentStr
      = [spaces (indent * indentStr.utf8ByteSize) ++ pfx ++ valStr x ++ "\n"] := by
  cases x with
  | none => rw [← getIndentArray_eq]; rfl
  | some x => rw [← getIndentArray_eq]; rfl

theorem arrayLines_wrapper (key : String) (nestedMap : List (String × Value)) (indent : Nat)
    (pfx indentStr : String) :
    arrayLines [.obj [(key, .obj nestedMap)]] indent pfx indentStr
      = [spaces (indent * indentStr.utf8ByteSize) ++ key ++ " \x7b\n"]
        ++ dataLines (.obj nestedMap) (indent + 1) pfx indentStr
        ++ [spaces (indent * indentStr.utf8ByteSize) ++ "\x7d\n"] := by
  rw [arrayLines, printArray_wrapper, printData_recorder, getIndentArray_eq]
  rfl

theorem arrayLines_block (v : List (String × Value)) (hlen : v.length ≠ 1) (indent : Nat)
    (pfx indentStr : String) :
    arrayLines [.obj v] indent pfx indentStr
      = [spaces (indent * indentStr.utf8ByteSize) ++ "\x7b\n"]
        ++ dataLines (.obj v) (indent + 1) pfx indentStr
        ++ [spaces (indent * indentStr.utf8ByteSize) ++ "\x7d\n"] := by
  rw [arrayLines, printArray_block v hlen, printData_recorder, getIndentArray_eq]
  rfl

theorem Print_create {σ : Type} (data : Value) (indentStr : String) (w : Writer σ) (s : σ) :
    Print data "create" indentStr w s = printData data 0 createPrefix indentStr w s := rfl

theorem Print_destroy {σ : Type} (data : Value) (indentStr : String) (w : Writer σ) (s : σ) :
    Print data "destroy" indentStr w s = printData data 0 destroyPrefix indentStr w s := rfl

/-! ## The operation tag -/

/-- C1. For every value, indent unit and sink, an operation tag that is not exactly
`create` or `destroy` makes `Print` return the invalid-operation error without a single
`Write` call, so that the sink is left as it was; for the tags `create` and `destroy`
`Print` returns `nil`, hence not that error. -/
theorem Print_invalid_operation {σ : Type} (data : Value) (operationTag indentStr : String)
    (w : Writer σ) (s : σ) :
    (operationTag ≠ "create" → operationTag ≠ "destroy" →
      Print data operationTag indentStr w s = (s, some (invalidOperation operationTag)))
    ∧ (Print data "create" indentStr w s).2 = none
    ∧ (Print data "destroy" indentStr w s).2 = none := by
  refine ⟨fun h1 h2 => ?_, ?_, ?_⟩
  · rw [Print, if_neg h1, if_neg h2]
  · rw [Print_create, printData_frame]
  · rw [Print_destroy, printData_frame]

/-- Witness of C1: the tags `Create` and the empty tag are rejected with nothing written. -/
theorem Print_invalid_operation_witness :
    Print (Value.nat 1) "Create" "    " recorder [] = ([], some (invalidOperation "Create"))
    ∧ Print (Value.nat 1) "" "    " recorder [] = ([], some (invalidOperation "")) :=
  ⟨(Print_invalid_operation (Value.nat 1) "Create" "    " recorder []).1 (by decide) (by decide),
   (Print_invalid_operation (Value.nat 1) "" "    " recorder []).1 (by decide) (by decide)⟩

/-! ## Top-level leaves and arrays of leaves -/

/-- C9. A scalar passed to `Print` is written as one line without indentation, whatever the
indent unit: the colour code, the three characters of the marker, the reset code, the text
of the scalar and a newline; green `+  ` for `create` and red `-  ` for `destroy`. -/
theorem Print_top_level_scalar (x : Scalar) (indentStr : String) :
    Print (.scalar x) "create" indentStr buffer ""
        = ("\x1b[32m" ++ "+  " ++ "\x1b[0m" ++ sprintV x ++ "\n", none)
    ∧ Print (.scalar x) "destroy" indentStr buffer ""
        = ("\x1b[31m" ++ "-  " ++ "\x1b[0m" ++ sprintV x ++ "\n", none)
    ∧ Print (.scalar x) "create" indentStr recorder []
        = (["\x1b[32m" ++ "+  " ++ "\x1b[0m" ++ sprintV x ++ "\n"], none)
    ∧ Print (.scalar x) "destroy" indentStr recorder []
        = (["\x1b[31m" ++ "-  " ++ "\x1b[0m" ++ sprintV x ++ "\n"], none) := by
  have h0 : getIndent (0 * indentStr.utf8ByteSize) true = "" := by
    rw [getIndent_true, Nat.zero_mul]; rfl
  refine ⟨?_, ?_, ?_, ?_⟩
  · rw [Print_create, printData.eq_4, h0]
    simp [Fprintf, buffer, createPrefix, valStr, String.append_assoc]
  · rw [Print_destroy, printData.eq_4, h0]
    simp [Fprintf, buffer, destroyPrefix, valStr, String.append_assoc]
  · rw [Print_create, printData.eq_4, h0]
    simp [Fprintf, recorder, createPrefix, valStr, String.append_assoc]
  · rw [Print_destroy, printData.eq_4, h0]
    simp [Fprintf, recorder, destroyPrefix, valStr, String.append_assoc]

theorem arrayLines_leaves (leaves : List (Option Scalar)) (indent : Nat)
    (pfx indentStr : String) :
    arrayLines (leaves.map Value.ofLeaf) indent pfx indentStr
      = leaves.map (fun x => spaces (indent * indentStr.utf8ByteSize) ++ pfx ++ valStr x ++ "\n") := by
  induction leaves with
  | nil => rfl
  | cons x xs ih => rw [List.map_cons, arrayLines_cons, ih, arrayLines_leaf]; rfl

/-- C10. An array passed to `Print` whose elements are all scalars or null is written as
one line for each element, in the order of the array, each line being the resolved prefix,
the text of the element (`(Unknown Value)` for null) and a newline, with no indentation;
`["foo", null]` with `destroy` gives `-  foo` and `-  (Unknown Value)` behind the red
marker. -/
theorem Print_top_level_leaf_array (leaves : List (Option Scalar)) (indentStr : String) :
    Print (.arr (leaves.map Value.ofLeaf)) "create" indentStr recorder []
        = (leaves.map (fun x => "\x1b[32m+  \x1b[0m" ++ valStr x ++ "\n"), none)
    ∧ Print (.arr (leaves.map Value.ofLeaf)) "destroy" indentStr recorder []
        = (leaves.map (fun x => "\x1b[31m-  \x1b[0m" ++ valStr x ++ "\n"), none)
    ∧ valStr none = "(Unknown Value)"
    ∧ Print (.arr [Value.str "foo", .null]) "destroy" "    " recorder []
        = (["\x1b[31m-  \x1b[0mfoo\n", "\x1b[31m-  \x1b[0m(Unknown Value)\n"], none) := by
  have h : ∀ pfx : String, (fun x : Option Scalar =>
      spaces (0 * indentStr.utf8ByteSize) ++ pfx ++ valStr x ++ "\n")
      = (fun x => pfx ++ valStr x ++ "\n") := by
    intro pfx; funext x; rw [Nat.zero_mul, spaces_zero, String.empty_append]
  refine ⟨?_, ?_, rfl, by decide⟩
  · rw [Print_create, printData.eq_2]
    exact Prod.ext ((arrayLines_leaves leaves 0 createPrefix indentStr).trans (by rw [h]; rfl)) rfl
  · rw [Print_destroy, printData.eq_2]
    exact Prod.ext ((arrayLines_leaves leaves 0 destroyPrefix indentStr).trans (by rw [h]; rfl)) rfl

/-! ## Map elements of an array -/

/-- C3. In an array at depth `d` an element that is a map with exactly one key `k` whose
value is itself a map `o` is written as the line of `d * len(indentStr)` spaces and `k {`,
then the rendering of `o` at depth `d + 1`, then the line of `d * len(indentStr)` spaces
and `}`, with no anonymous brace lines around it; the elements before and after it are
written before and after these lines. `[{"subscriber": {"id": 5}}]` with `create` starts
with the line `subscriber {` and ends with the line `}`. -/
theorem printArray_wrapper_element (xs ys : List Value) (k : String)
    (o : List (String × Value)) (d : Nat) (pfx indentStr : String) :
    arrayLines (xs ++ [.obj [(k, .obj o)]] ++ ys) d pfx indentStr
        = arrayLines xs d pfx indentStr
          ++ ([spaces (d * indentStr.utf8ByteSize) ++ k ++ " \x7b\n"]
              ++ dataLines (.obj o) (d + 1) pfx indentStr
              ++ [spaces (d * indentStr.utf8ByteSize) ++ "\x7d\n"])
          ++ arrayLines ys d pfx indentStr
    ∧ Print (.arr [.obj [("subscriber", .obj [("id", Value.nat 5)])]]) "create" "    "
          recorder []
        = (["subscriber \x7b\n", " \x1b[32m+  \x1b[0mid = 5\n", "\x7d\n"], none) := by
  refine ⟨?_, by decide⟩
  rw [arrayLines_append, arrayLines_append, arrayLines_wrapper]

/-- C4, at the failing inputs: an element of an array that is a map with exactly one key
whose value is not a map (`{"a": 1}`, `{"a": [1]}`) is not written at all, neither braces
nor content, while the same entry next to a second key is written as the anonymous brace
block that the claim describes. -/
theorem printArray_single_key_element_dropped :
    Print (.arr [.obj [("a", Value.nat 1)]]) "create" "    " recorder [] = ([], none)
    ∧ Print (.arr [.obj [("a", .arr [Value.nat 1])]]) "create" "    " recorder [] = ([], none)
    ∧ Print (.arr [.obj [("a", Value.nat 1), ("b", Value.nat 2)]]) "create" "    " recorder []
        = (["\x7b\n", " \x1b[32m+  \x1b[0ma = 1\n", " \x1b[32m+  \x1b[0mb = 2\n", "\x7d\n"],
            none) := by
  decide

/-- C5, at a failing input: the tree `{"items": [{"name": "x"}]}` has one leaf, and `Print`
with `create` on a sink that never fails writes the two bracket lines only, no leaf line. -/
theorem Print_leaf_not_rendered :
    (Value.obj [("items", .arr [.obj [("name", Value.str "x")]])]).leaves = 1
    ∧ Print (.obj [("items", .arr [.obj [("name", Value.str "x")]])]) "create" "    "
          recorder []
        = (["items [\n", "]\n"], none)
    ∧ Print (.obj [("items", .arr [.obj [("name", Value.str "x")]])]) "create" "    "
          buffer ""
        = ("items [\n]\n", none) := by
  decide

/-! ## The example of the specification -/

/-- C6, as stated, fails: the second line of the rendering of `{"b": 2, "a": {"x": 1}}`
with `create` and four spaces is not four spaces followed by the marker. -/
theorem Print_example_second_line_not_four_spaces :
    (Print (.obj [("b", Value.nat 2), ("a", .obj [("x", Value.nat 1)])]) "create" "    "
        recorder []).1
      ≠ ["a \x7b\n", "    " ++ "\x1b[32m+  \x1b[0m" ++ "x = 1\n", "\x7d\n",
          "\x1b[32m+  \x1b[0m" ++ "b = 2\n"] := by
  decide

/-- C6, amended. Rendering `{"b": 2, "a": {"x": 1}}` with `create` and an indent unit of
four spaces writes exactly four lines: `a {`, then one space followed by the green marker
`+  ` and `x = 1` (the key stands in column four), then `}`, then the green marker followed
by `b = 2`. -/
theorem Print_example_object :
    Print (.obj [("b", Value.nat 2), ("a", .obj [("x", Value.nat 1)])]) "create" "    "
        recorder []
      = (["a \x7b\n", " " ++ "\x1b[32m+  \x1b[0m" ++ "x = 1\n", "\x7d\n",
          "\x1b[32m+  \x1b[0m" ++ "b = 2\n"], none) := by
  decide

/-! ## Write errors -/

/-- C8, as stated, fails: on a sink that rejects every write, `Print` with `create` on
`["a", "b"]` still makes both calls and returns `nil`. -/
theorem Print_continues_after_write_error :
    (∀ calls text, (rejecting.write calls text).2 = some "write rejected")
    ∧ Print (.arr [Value.str "a", Value.str "b"]) "create" "    " rejecting 0 = (2, none) :=
  ⟨fun _ _ => rfl, by decide⟩

/-- C8, amended. With a valid operation tag `Print` returns `nil` whatever the sink answers:
the error of a write is dropped, the traversal goes on, and the sink receives every write
of the rendering, in order. -/
theorem Print_drops_write_errors {σ : Type} (data : Value) (operationTag indentStr : String)
    (w : Writer σ) (s : σ) (htag : operationTag = "create" ∨ operationTag = "destroy") :
    (Print data operationTag indentStr w s).2 = none
    ∧ (Print data operationTag indentStr w s).1
        = writeAll w s (Print data operationTag indentStr recorder []).1 := by
  rcases htag with rfl | rfl
  · rw [Print_create, Print_create, printData_frame]
    exact ⟨rfl, rfl⟩
  · rw [Print_destroy, Print_destroy, printData_frame]
    exact ⟨rfl, rfl⟩

/-- Witness of the amended C8 on the sink that rejects every write. -/
theorem Print_drops_write_errors_witness :
    (Print (.arr [Value.str "a", Value.str "b"]) "create" "    " rejecting 0).2 = none
    ∧ (Print (.arr [Value.str "a", Value.str "b"]) "create" "    " rejecting 0).1
        = writeAll rejecting 0
            (Print (.arr [Value.str "a", Value.str "b"]) "create" "    " recorder []).1 :=
  Print_drops_write_errors _ "create" "    " rejecting 0 (Or.inl rfl)

/-! ## The lines of an entry of a map -/

theorem entryLines_obj (key : String) (m : List (String × Value)) (indent : Nat)
    (pfx indentStr : String) :
    entryLines (key, .obj m) indent pfx indentStr
      = [spaces (indent * indentStr.utf8ByteSize) ++ key ++ " \x7b\n"]
        ++ dataLines (.obj m) (indent + 1) pfx indentStr
        ++ [spaces (indent * indentStr.utf8ByteSize) ++ "\x7d\n"] := by
  rw [entryLines, loopBody.eq_1, printData_recorder, getIndent_false]
  rfl

theorem entryLines_arr (key : String) (a : List Value) (indent : Nat)
    (pfx indentStr : String) :
    entryLines (key, .arr a) indent pfx indentStr
      = [spaces (indent * indentStr.utf8ByteSize) ++ key ++ " [\n"]
        ++ arrayLines a (indent + 1) pfx indentStr
        ++ [spaces (indent * indentStr.utf8ByteSize) ++ "]\n"] := by
  rw [entryLines, loopBody.eq_2, printArray_frame, writeAll_recorder, getIndent_false]
  rfl

theorem entryLines_leaf (key : String) (x : Option Scalar) (indent : Nat)
    (pfx indentStr : String) (hpfx : pfx ≠ "") :
    entryLines (key, Value.ofLeaf x) indent pfx indentStr
      = [spaces (indent * indentStr.utf8ByteSize - 3) ++ pfx ++ key ++ " = " ++ valStr x
          ++ "\n"] := by
  have h : (pfx != "") = true := by simpa using hpfx
  cases x with
  | none => rw [Value.ofLeaf, entryLines, loopBody.eq_3, h, getIndent_true]; rfl
  | some x => rw [Value.ofLeaf, entryLines, loopBody.eq_4, h, getIndent_true]; rfl

theorem writeAll_buffer (b : String) (texts : List String) :
    writeAll buffer b texts = b ++ String.join texts := by
  induction texts generalizing b with
  | nil => simp [writeAll, String.join]
  | cons t ts ih =>
    have h := ih (b ++ t)
    have hj : String.join (t :: ts) = t ++ String.join ts := by
      rw [String.join_eq, String.join_eq]; rfl
    rw [hj, ← String.append_assoc, ← h]
    rfl

/-- The text that `printData` leaves in a buffer is the text of its lines. -/
theorem printData_buffer (data : Value) (indent : Nat) (pfx indentStr : String) (b : String) :
    (printData data indent pfx indentStr buffer b).1
      = b ++ String.join (dataLines data indent pfx indentStr) := by
  rw [printData_frame, writeAll_buffer]

/-! ## Sorted keys -/

/-- C2. A map with distinct keys is rendered entry after entry in the ascending order of
the keys, wherever `printData` meets it and however its entries are stored. There is an
arrangement `sorted` of the entries with strictly ascending keys, and for every such
arrangement: the calls of `printData` at any depth are the calls for the entries in that
order, on the recorder and on every other sink; under a key and as an element of an array
(as the value of a single key, or with no key or several keys) the content between the
brace lines is again the entries in that order one level deeper; at top level `Print`
writes them at depth zero. Storing the entries in another order changes nothing. -/
theorem printData_object_keys_ascending (v : List (String × Value)) (hnd : NodupKeys v)
    (indent : Nat) (pfx indentStr : String) :
    (∃ sorted : List (String × Value),
        sorted.Perm v ∧ sorted.Pairwise (fun a b => strLt a.1 b.1))
    ∧ (∀ sorted : List (String × Value),
        sorted.Perm v → sorted.Pairwise (fun a b => strLt a.1 b.1) →
        dataLines (.obj v) indent pfx indentStr
            = (sorted.map (fun e => entryLines e indent pfx indentStr)).flatten
        ∧ (∀ (σ : Type) (w : Writer σ) (s : σ),
            (printData (.obj v) indent pfx indentStr w s).1
              = sorted.foldl (fun s e => loopBody e indent pfx indentStr w s) s)
        ∧ (∀ k : String, entryLines (k, .obj v) indent pfx indentStr
            = [spaces (indent * indentStr.utf8ByteSize) ++ k ++ " \x7b\n"]
              ++ (sorted.map (fun e => entryLines e (indent + 1) pfx indentStr)).flatten
              ++ [spaces (indent * indentStr.utf8ByteSize) ++ "\x7d\n"])
        ∧ (∀ k : String, arrayLines [.obj [(k, .obj v)]] indent pfx indentStr
            = [spaces (indent * indentStr.utf8ByteSize) ++ k ++ " \x7b\n"]
              ++ (sorted.map (fun e => entryLines e (indent + 1) pfx indentStr)).flatten
              ++ [spaces (indent * indentStr.utf8ByteSize) ++ "\x7d\n"])
        ∧ (v.length ≠ 1 → arrayLines [.obj v] indent pfx indentStr
            = [spaces (indent * indentStr.utf8ByteSize) ++ "\x7b\n"]
              ++ (sorted.map (fun e => entryLines e (indent + 1) pfx indentStr)).flatten
              ++ [spaces (indent * indentStr.utf8ByteSize) ++ "\x7d\n"])
        ∧ (Print (.obj v) "create" indentStr recorder []).1
            = (sorted.map (fun e => entryLines e 0 createPrefix indentStr)).flatten
        ∧ (Print (.obj v) "destroy" indentStr recorder []).1
            = (sorted.map (fun e => entryLines e 0 destroyPrefix indentStr)).flatten)
    ∧ (∀ v' : List (String × Value), v'.Perm v →
        dataLines (.obj v') indent pfx indentStr = dataLines (.obj v) indent pfx indentStr) := by
  refine ⟨exists_sorted_entries v hnd, fun sorted hperm hs => ⟨?_, ?_, ?_, ?_, ?_, ?_, ?_⟩,
    fun v' hv' => dataLines_obj_perm v v' hnd hv' indent pfx indentStr⟩
  · exact dataLines_obj_sorted v sorted hperm hs indent pfx indentStr
  · exact fun σ w s => printData_obj_sorted v sorted hperm hs indent pfx indentStr w s
  · intro k
    rw [entryLines_obj, dataLines_obj_sorted v sorted hperm hs]
  · intro k
    rw [arrayLines_wrapper, dataLines_obj_sorted v sorted hperm hs]
  · intro hlen
    rw [arrayLines_block v hlen, dataLines_obj_sorted v sorted hperm hs]
  · rw [Print_create]
    exact dataLines_obj_sorted v sorted hperm hs 0 createPrefix indentStr
  · rw [Print_destroy]
    exact dataLines_obj_sorted v sorted hperm hs 0 destroyPrefix indentStr

/-- Witness of C2: the map `{"b": 2, "a": {"x": 1}}`, stored with `b` first, is rendered
with the entry of `a` first. -/
theorem printData_object_keys_ascending_witness :
    dataLines (.obj [("b", Value.nat 2), ("a", .obj [("x", Value.nat 1)])]) 1 createPrefix "    "
      = ([("a", Value.obj [("x", Value.nat 1)]), ("b", Value.nat 2)].map
          (fun e => entryLines e 1 createPrefix "    ")).flatten :=
  ((printData_object_keys_ascending
      [("b", Value.nat 2), ("a", .obj [("x", Value.nat 1)])]
      (by unfold NodupKeys; decide) 1 createPrefix "    ").2.1
    [("a", Value.obj [("x", Value.nat 1)]), ("b", Value.nat 2)]
    (List.Perm.swap _ _ _)
    (by simp only [List.pairwise_cons, List.mem_singleton, forall_eq, List.not_mem_nil,
          false_implies, implies_true, List.Pairwise.nil, and_true]; decide)).1

/-! ## Null -/

/-- C7. A null value is written as the literal text `(Unknown Value)` behind the prefix in
each context. As the value of the key `k` of a map at depth `d`, whose entries in key order
are `before`, the entry of `k` and `after`, its line comes between the lines of `before`
and of `after` and is the indentation, the prefix and `k = (Unknown Value)`. As an element
of an array its line is the indentation, the prefix and `(Unknown Value)`. Passed to `Print`
itself, the single line is the resolved prefix and `(Unknown Value)`. -/
theorem null_renders_unknown_value (v before after : List (String × Value)) (k : String)
    (xs ys : List Value) (d : Nat) (pfx indentStr : String)
    (hperm : (before ++ (k, Value.null) :: after).Perm v)
    (hsorted : (before ++ (k, Value.null) :: after).Pairwise (fun a b => strLt a.1 b.1))
    (hpfx : pfx ≠ "") :
    dataLines (.obj v) d pfx indentStr
        = (before.map (fun e => entryLines e d pfx indentStr)).flatten
          ++ [spaces (d * indentStr.utf8ByteSize - 3) ++ pfx ++ k ++ " = " ++ "(Unknown Value)"
                ++ "\n"]
          ++ (after.map (fun e => entryLines e d pfx indentStr)).flatten
    ∧ arrayLines (xs ++ [.null] ++ ys) d pfx indentStr
        = arrayLines xs d pfx indentStr
          ++ [spaces (d * indentStr.utf8ByteSize) ++ pfx ++ "(Unknown Value)" ++ "\n"]
          ++ arrayLines ys d pfx indentStr
    ∧ Print .null "create" indentStr recorder []
        = (["\x1b[32m+  \x1b[0m" ++ "(Unknown Value)" ++ "\n"], none)
    ∧ Print .null "destroy" indentStr recorder []
        = (["\x1b[31m-  \x1b[0m" ++ "(Unknown Value)" ++ "\n"], none) := by
  have h0 : getIndent (0 * indentStr.utf8ByteSize) true = "" := by
    rw [getIndent_true, Nat.zero_mul]; rfl
  refine ⟨?_, ?_, ?_, ?_⟩
  · rw [dataLines_obj_sorted v _ hperm hsorted, List.map_append, List.map_cons,
      List.flatten_append, List.flatten_cons]
    have := entryLines_leaf k none d pfx indentStr hpfx
    rw [Value.ofLeaf] at this
    rw [this, List.append_assoc]
    rfl
  · rw [arrayLines_append, arrayLines_append]
    have := arrayLines_leaf none d pfx indentStr
    rw [Value.ofLeaf] at this
    rw [this]
    rfl
  · rw [Print_create, printData.eq_3, h0]
    simp [Fprintf, recorder, createPrefix, valStr, String.append_assoc]
  · rw [Print_destroy, printData.eq_3, h0]
    simp [Fprintf, recorder, destroyPrefix, valStr, String.append_assoc]

/-- Witness of C7: `{"z": true, "k": null}` and `[1, null]` at depth two. -/
theorem null_renders_unknown_value_witness :
    dataLines (.obj [("z", .scalar (.bool true)), ("k", .null)]) 2 createPrefix "    "
        = ["     \x1b[32m+  \x1b[0mk = (Unknown Value)\n", "     \x1b[32m+  \x1b[0mz = true\n"]
    ∧ arrayLines [Value.nat 1, .null] 2 createPrefix "    "
        = ["        \x1b[32m+  \x1b[0m1\n", "        \x1b[32m+  \x1b[0m(Unknown Value)\n"] :=
  have h := null_renders_unknown_value
    [("z", .scalar (.bool true)), ("k", .null)] [] [("z", .scalar (.bool true))] "k"
    [Value.nat 1] [] 2 createPrefix "    "
    (List.Perm.swap _ _ _)
    (by simp only [List.nil_append, List.pairwise_cons, List.mem_singleton, forall_eq,
          List.not_mem_nil, false_implies, implies_true, List.Pairwise.nil, and_true]; decide)
    (by decide)
  ⟨h.1.trans (by decide), h.2.1.trans (by decide)⟩

/-! ## Leaf lines and block lines of a map -/

/-- The calls for a map around one of its entries: the entries before it in key order, the
entry, the entries after it. -/
theorem dataLines_obj_entry (v before after : List (String × Value)) (e : String × Value)
    (hperm : (before ++ e :: after).Perm v)
    (hsorted : (before ++ e :: after).Pairwise (fun a b => strLt a.1 b.1))
    (indent : Nat) (pfx indentStr : String) :
    dataLines (.obj v) indent pfx indentStr
      = (before.map (fun e => entryLines e indent pfx indentStr)).flatten
        ++ entryLines e indent pfx indentStr
        ++ (after.map (fun e => entryLines e indent pfx indentStr)).flatten := by
  rw [dataLines_obj_sorted v _ hperm hsorted, List.map_append, List.map_cons,
    List.flatten_append, List.flatten_cons, List.append_assoc]

theorem toNat_max_sub (b : Nat) : (max (0 : Int) ((b : Int) - 3)).toNat = b - 3 := by
  omega

/-- C11. In a map at depth `d`, an entry whose value is a scalar or null is written as one
line: `max(0, d * len(indentStr) - 3)` spaces, the prefix, the key, ` = `, the text of the
value (`(Unknown Value)` for null) and a newline. The line stands between the lines of the
entries before and after it in key order; at top level `Print` writes it at depth zero with
the resolved prefix. -/
theorem object_leaf_line (v before after : List (String × Value)) (k : String)
    (x : Option Scalar) (d : Nat) (pfx indentStr : String)
    (hperm : (before ++ (k, Value.ofLeaf x) :: after).Perm v)
    (hsorted : (before ++ (k, Value.ofLeaf x) :: after).Pairwise (fun a b => strLt a.1 b.1))
    (hpfx : pfx ≠ "") :
    dataLines (.obj v) d pfx indentStr
        = (before.map (fun e => entryLines e d pfx indentStr)).flatten
          ++ [spaces (max (0 : Int) ((d * indentStr.utf8ByteSize : Nat) - 3)).toNat
                ++ pfx ++ k ++ " = " ++ valStr x ++ "\n"]
          ++ (after.map (fun e => entryLines e d pfx indentStr)).flatten
    ∧ valStr none = "(Unknown Value)"
    ∧ (∀ y : Scalar, valStr (some y) = sprintV y)
    ∧ (Print (.obj v) "create" indentStr recorder []).1
        = (before.map (fun e => entryLines e 0 createPrefix indentStr)).flatten
          ++ ["\x1b[32m+  \x1b[0m" ++ k ++ " = " ++ valStr x ++ "\n"]
          ++ (after.map (fun e => entryLines e 0 createPrefix indentStr)).flatten
    ∧ (Print (.obj v) "destroy" indentStr recorder []).1
        = (before.map (fun e => entryLines e 0 destroyPrefix indentStr)).flatten
          ++ ["\x1b[31m-  \x1b[0m" ++ k ++ " = " ++ valStr x ++ "\n"]
          ++ (after.map (fun e => entryLines e 0 destroyPrefix indentStr)).flatten := by
  have h0 : ∀ p : String, spaces (0 * indentStr.utf8ByteSize - 3) ++ p = p := by
    intro p; rw [Nat.zero_mul]; exact String.empty_append p
  refine ⟨?_, rfl, fun _ => rfl, ?_, ?_⟩
  · rw [dataLines_obj_entry v before after _ hperm hsorted, entryLines_leaf k x d pfx indentStr hpfx,
      toNat_max_sub]
  · rw [Print_create]
    have := dataLines_obj_entry v before after _ hperm hsorted 0 createPrefix indentStr
    rw [entryLines_leaf k x 0 createPrefix indentStr (by decide), h0] at this
    exact this
  · rw [Print_destroy]
    have := dataLines_obj_entry v before after _ hperm hsorted 0 destroyPrefix indentStr
    rw [entryLines_leaf k x 0 destroyPrefix indentStr (by decide), h0] at this
    exact this

/-- Witness of C11: `{"name": "x", "id": 5}` at depth two with an indent unit of four. -/
theorem object_leaf_line_witness :
    dataLines (.obj [("name", Value.str "x"), ("id", Value.nat 5)]) 2 createPrefix "    "
      = ["     \x1b[32m+  \x1b[0mid = 5\n", "     \x1b[32m+  \x1b[0mname = x\n"] :=
  (object_leaf_line [("name", Value.str "x"), ("id", Value.nat 5)] []
      [("name", Value.str "x")] "id" (some (.num (Float64.ofNat 5))) 2 createPrefix "    "
      (List.Perm.swap _ _ _)
      (by simp only [List.nil_append, List.pairwise_cons, List.mem_singleton, forall_eq,
            List.not_mem_nil, false_implies, implies_true, List.Pairwise.nil, and_true]; decide)
      (by decide)).1.trans (by decide)

/-! ## Scalar elements of an array -/

/-- C12, at the failing input: in `{"a": [1]}` with `create` and an indent unit of four, the
scalar element of the array at depth one is written behind four spaces, not behind
`max(0, 4 - 3) = 1` space, so that the text behind the marker stands in column seven and
not in column four of the sibling line `[`; the leaf of a map at the same depth
(`{"a": {"x": 1}}`) is written behind one space. -/
theorem printArray_scalar_indent_not_reduced :
    Print (.obj [("a", .arr [Value.nat 1])]) "create" "    " recorder []
        = (["a [\n", "    \x1b[32m+  \x1b[0m1\n", "]\n"], none)
    ∧ arrayLines [Value.nat 1] 1 createPrefix "    "
        ≠ [spaces (max (0 : Int) ((1 * "    ".utf8ByteSize : Nat) - 3)).toNat
            ++ createPrefix ++ "1" ++ "\n"]
    ∧ Print (.obj [("a", .obj [("x", Value.nat 1)])]) "create" "    " recorder []
        = (["a \x7b\n", " \x1b[32m+  \x1b[0mx = 1\n", "\x7d\n"], none) := by
  decide

/-- What `printArray` writes at depth `d`: a scalar or null element is one line of
`d * len(indentStr)` spaces, the prefix and the text, behind the same number of spaces as the
unprefixed lines `[`, `{` and `<key> {` of the same array. -/
theorem printArray_scalar_line (xs ys inner : List Value) (x : Option Scalar) (k : String)
    (m v : List (String × Value)) (hv : v.length ≠ 1) (d : Nat) (pfx indentStr : String) :
    arrayLines (xs ++ [Value.ofLeaf x] ++ ys) d pfx indentStr
        = arrayLines xs d pfx indentStr
          ++ [spaces (d * indentStr.utf8ByteSize) ++ pfx ++ valStr x ++ "\n"]
          ++ arrayLines ys d pfx indentStr
    ∧ arrayLines [.arr inner] d pfx indentStr
        = [spaces (d * indentStr.utf8ByteSize) ++ "[\n"]
          ++ arrayLines inner (d + 1) pfx indentStr
          ++ [spaces (d * indentStr.utf8ByteSize) ++ "]\n"]
    ∧ arrayLines [.obj [(k, .obj m)]] d pfx indentStr
        = [spaces (d * indentStr.utf8ByteSize) ++ k ++ " \x7b\n"]
          ++ dataLines (.obj m) (d + 1) pfx indentStr
          ++ [spaces (d * indentStr.utf8ByteSize) ++ "\x7d\n"]
    ∧ arrayLines [.obj v] d pfx indentStr
        = [spaces (d * indentStr.utf8ByteSize) ++ "\x7b\n"]
          ++ dataLines (.obj v) (d + 1) pfx indentStr
          ++ [spaces (d * indentStr.utf8ByteSize) ++ "\x7d\n"] := by
  refine ⟨?_, ?_, arrayLines_wrapper k m d pfx indentStr, arrayLines_block v hv d pfx indentStr⟩
  · rw [arrayLines_append, arrayLines_append, arrayLines_leaf]
  · rw [arrayLines, printArray_arr, printArray_frame, writeAll_recorder, getIndentArray_eq]
    rfl

/-- An instance: `[true, null, []]` at depth one; the empty map has no key. -/
theorem printArray_scalar_line_witness :
    arrayLines ([.scalar (.bool true)] ++ [Value.ofLeaf none] ++ [.arr []]) 1 createPrefix "    "
        = arrayLines [.scalar (.bool true)] 1 createPrefix "    "
          ++ [spaces (1 * "    ".utf8ByteSize) ++ createPrefix ++ valStr none ++ "\n"]
          ++ arrayLines [.arr []] 1 createPrefix "    " :=
  (printArray_scalar_line [.scalar (.bool true)] [.arr []] [] none "k" [] [] (by decide) 1
    createPrefix "    ").1

/-! ## Blocks -/

/-- C13. Every block is delimited by an opener line and a closer line of exactly
`d * len(indentStr)` spaces without prefix, `d` being the depth of the enclosing container,
and its content is rendered at depth `d + 1` between them: `<key> {` and `}` around the map
under a key of a map, `<key> [` and `]` around the array under a key of a map, `[` and `]`
around an array that is an element of an array. The block stands between the lines of the
entries (elements) before and after it. -/
theorem block_delimiters (d : Nat) (pfx indentStr : String) :
    (∀ (v before after m : List (String × Value)) (k : String),
      (before ++ (k, .obj m) :: after).Perm v →
      (before ++ (k, .obj m) :: after).Pairwise (fun a b => strLt a.1 b.1) →
      dataLines (.obj v) d pfx indentStr
        = (before.map (fun e => entryLines e d pfx indentStr)).flatten
          ++ ([spaces (d * indentStr.utf8ByteSize) ++ k ++ " \x7b\n"]
              ++ dataLines (.obj m) (d + 1) pfx indentStr
              ++ [spaces (d * indentStr.utf8ByteSize) ++ "\x7d\n"])
          ++ (after.map (fun e => entryLines e d pfx indentStr)).flatten)
    ∧ (∀ (v before after : List (String × Value)) (a : List Value) (k : String),
      (before ++ (k, .arr a) :: after).Perm v →
      (before ++ (k, .arr a) :: after).Pairwise (fun a b => strLt a.1 b.1) →
      dataLines (.obj v) d pfx indentStr
        = (before.map (fun e => entryLines e d pfx indentStr)).flatten
          ++ ([spaces (d * indentStr.utf8ByteSize) ++ k ++ " [\n"]
              ++ arrayLines a (d + 1) pfx indentStr
              ++ [spaces (d * indentStr.utf8ByteSize) ++ "]\n"])
          ++ (after.map (fun e => entryLines e d pfx indentStr)).flatten)
    ∧ (∀ xs ys inner : List Value,
      arrayLines (xs ++ [.arr inner] ++ ys) d pfx indentStr
        = arrayLines xs d pfx indentStr
          ++ ([spaces (d * indentStr.utf8ByteSize) ++ "[\n"]
              ++ arrayLines inner (d + 1) pfx indentStr
              ++ [spaces (d * indentStr.utf8ByteSize) ++ "]\n"])
          ++ arrayLines ys d pfx indentStr) := by
  refine ⟨?_, ?_, ?_⟩
  · intro v before after m k hperm hsorted
    rw [dataLines_obj_entry v before after _ hperm hsorted, entryLines_obj]
  · intro v before after a k hperm hsorted
    rw [dataLines_obj_entry v before after _ hperm hsorted, entryLines_arr]
  · intro xs ys inner
    rw [arrayLines_append, arrayLines_append]
    congr 2
    rw [arrayLines, printArray_arr, printArray_frame, writeAll_recorder, getIndentArray_eq]
    rfl

/-- Witness of C13: `{"tags": ["x"], "meta": {"id": 5}}` at depth one with four spaces. -/
theorem block_delimiters_witness :
    dataLines (.obj [("tags", .arr [Value.str "x"]), ("meta", .obj [("id", Value.nat 5)])]) 1
        createPrefix "    "
      = ["    meta \x7b\n", "     \x1b[32m+  \x1b[0mid = 5\n", "    \x7d\n",
         "    tags [\n", "        \x1b[32m+  \x1b[0mx\n", "    ]\n"] :=
  ((block_delimiters 1 createPrefix "    ").1
      [("tags", .arr [Value.str "x"]), ("meta", .obj [("id", Value.nat 5)])] []
      [("tags", .arr [Value.str "x"])] [("id", Value.nat 5)] "meta"
      (List.Perm.swap _ _ _)
      (by simp only [List.nil_append, List.pairwise_cons, List.mem_singleton, forall_eq,
            List.not_mem_nil, false_implies, implies_true, List.Pairwise.nil, and_true]; decide)
    ).trans (by decide)

/-! ## Strings and booleans -/

/-- C17. A string is written verbatim, without quotes or escapes, and a boolean as `true` or
`false`: the text of the value on its leaf line is the string itself, respectively `true`
or `false`, under a key of a map, as an element of an array and at top level. -/
theorem strings_verbatim_booleans_plain (s k : String) (d : Nat) (pfx indentStr : String)
    (hpfx : pfx ≠ "") :
    sprintV (.str s) = s
    ∧ sprintV (.bool true) = "true"
    ∧ sprintV (.bool false) = "false"
    ∧ (∀ x : Scalar, entryLines (k, .scalar x) d pfx indentStr
        = [spaces (d * indentStr.utf8ByteSize - 3) ++ pfx ++ k ++ " = " ++ sprintV x ++ "\n"])
    ∧ entryLines (k, .scalar (.str s)) d pfx indentStr
        = [spaces (d * indentStr.utf8ByteSize - 3) ++ pfx ++ k ++ " = " ++ s ++ "\n"]
    ∧ (∀ x : Scalar, arrayLines [.scalar x] d pfx indentStr
        = [spaces (d * indentStr.utf8ByteSize) ++ pfx ++ sprintV x ++ "\n"])
    ∧ arrayLines [.scalar (.str s)] d pfx indentStr
        = [spaces (d * indentStr.utf8ByteSize) ++ pfx ++ s ++ "\n"]
    ∧ Print (.scalar (.str s)) "create" indentStr recorder []
        = (["\x1b[32m+  \x1b[0m" ++ s ++ "\n"], none)
    ∧ Print (.scalar (.str s)) "destroy" indentStr recorder []
        = (["\x1b[31m-  \x1b[0m" ++ s ++ "\n"], none)
    ∧ Print (.scalar (.bool true)) "create" indentStr recorder []
        = (["\x1b[32m+  \x1b[0m" ++ "true" ++ "\n"], none)
    ∧ Print (.scalar (.bool false)) "destroy" indentStr recorder []
        = (["\x1b[31m-  \x1b[0m" ++ "false" ++ "\n"], none) := by
  have h0 : getIndent (0 * indentStr.utf8ByteSize) true = "" := by
    rw [getIndent_true, Nat.zero_mul]; rfl
  have hentry : ∀ x : Scalar, entryLines (k, .scalar x) d pfx indentStr
      = [spaces (d * indentStr.utf8ByteSize - 3) ++ pfx ++ k ++ " = " ++ sprintV x ++ "\n"] :=
    fun x => entryLines_leaf k (some x) d pfx indentStr hpfx
  have harr : ∀ x : Scalar, arrayLines [.scalar x] d pfx indentStr
      = [spaces (d * indentStr.utf8ByteSize) ++ pfx ++ sprintV x ++ "\n"] :=
    fun x => arrayLines_leaf (some x) d pfx indentStr
  have htop : ∀ (x : Scalar) (p : String),
      printData (.scalar x) 0 p indentStr recorder [] = ([p ++ sprintV x ++ "\n"], none) := by
    intro x p
    rw [printData.eq_4, h0, String.empty_append]
    rfl
  refine ⟨rfl, rfl, rfl, hentry, hentry _, harr, harr _, ?_, ?_, ?_, ?_⟩
  · rw [Print_create]; exact htop _ _
  · rw [Print_destroy]; exact htop _ _
  · rw [Print_create]; exact htop _ _
  · rw [Print_destroy]; exact htop _ _

/-- Witness of C17: a string with a quote, a backslash and a line break goes out as it is. -/
theorem strings_verbatim_booleans_plain_witness :
    entryLines ("k", .scalar (.str "a\"b\\c\nd")) 1 createPrefix "    "
      = [" \x1b[32m+  \x1b[0mk = a\"b\\c\nd\n"] :=
  (strings_verbatim_booleans_plain "a\"b\\c\nd" "k" 1 createPrefix "    "
    (by decide)).2.2.2.2.1.trans (by decide)

/-! ## Arrays and concatenation -/

theorem String_join_append (a b : List String) :
    String.join (a ++ b) = String.join a ++ String.join b := by
  rw [String.join_eq, String.join_eq, String.join_eq, List.map_append, List.flatten_append]
  rfl

/-- The text that `printArray` leaves in a buffer is the text of its lines. -/
theorem printArray_buffer (data : List Value) (indent : Nat) (pfx indentStr : String)
    (b : String) :
    printArray data indent pfx indentStr buffer b
      = b ++ String.join (arrayLines data indent pfx indentStr) := by
  rw [printArray_frame, writeAll_buffer]

/-- C20. The rendering of an array is a homomorphism over concatenation: at every depth,
for every prefix and indent unit, the lines (and the text) written for `xs ++ ys` are those
written for `xs` followed by those written for `ys`, on every sink; the empty array writes
nothing; the lines of an element are the same wherever it stands and whatever stands
around it. The same holds for arrays passed to `Print` with a valid tag. -/
theorem printArray_homomorphism (xs ys : List Value) (e : Value) (d : Nat)
    (pfx indentStr : String) :
    arrayLines (xs ++ ys) d pfx indentStr
        = arrayLines xs d pfx indentStr ++ arrayLines ys d pfx indentStr
    ∧ printArray (xs ++ ys) d pfx indentStr buffer ""
        = printArray xs d pfx indentStr buffer "" ++ printArray ys d pfx indentStr buffer ""
    ∧ (∀ (σ : Type) (w : Writer σ) (s : σ),
        printArray (xs ++ ys) d pfx indentStr w s
          = printArray ys d pfx indentStr w (printArray xs d pfx indentStr w s))
    ∧ arrayLines [] d pfx indentStr = []
    ∧ (∀ (σ : Type) (w : Writer σ) (s : σ), printArray [] d pfx indentStr w s = s)
    ∧ arrayLines (xs ++ e :: ys) d pfx indentStr
        = arrayLines xs d pfx indentStr ++ arrayLines [e] d pfx indentStr
          ++ arrayLines ys d pfx indentStr
    ∧ (Print (.arr (xs ++ ys)) "create" indentStr recorder []).1
        = (Print (.arr xs) "create" indentStr recorder []).1
          ++ (Print (.arr ys) "create" indentStr recorder []).1
    ∧ (Print (.arr (xs ++ ys)) "destroy" indentStr recorder []).1
        = (Print (.arr xs) "destroy" indentStr recorder []).1
          ++ (Print (.arr ys) "destroy" indentStr recorder []).1 := by
  refine ⟨arrayLines_append xs ys d pfx indentStr, ?_,
    fun σ w s => printArray_append xs ys d pfx indentStr w s, rfl, fun _ _ _ => rfl, ?_, ?_, ?_⟩
  · rw [printArray_buffer, printArray_buffer, printArray_buffer, arrayLines_append,
      String_join_append, String.empty_append, String.empty_append, String.empty_append]
  · rw [arrayLines_append, arrayLines_cons e ys, List.append_assoc]
  · exact arrayLines_append xs ys 0 createPrefix indentStr
  · exact arrayLines_append xs ys 0 destroyPrefix indentStr

/-! ## The column of the keys -/

theorem visibleWidthFrom_spaces (n : Nat) (rest : List Char) :
    visibleWidthFrom false (List.replicate n ' ' ++ rest) = n + visibleWidthFrom false rest := by
  induction n with
  | zero => simp
  | succ n ih =>
    rw [List.replicate_succ, List.cons_append, visibleWidthFrom, if_neg (by decide), ih]
    omega

theorem visibleWidth_spaces_append (n : Nat) (s : String) :
    visibleWidth (spaces n ++ s) = n + visibleWidth s := by
  rw [visibleWidth, String.data_append, spaces, visibleWidthFrom_spaces]
  rfl

theorem visibleWidth_spaces (n : Nat) : visibleWidth (spaces n) = n := by
  have := visibleWidth_spaces_append n ""
  rw [String.append_empty] at this
  rw [this]
  rfl

/-- C18, as stated, fails: at depth zero (`{"b": 2, "a": {"x": 1}}` with `create` and four
spaces) the key `b` of the leaf line begins at visible column three and the key `a` of the
opener line at column zero. -/
theorem key_columns_differ_at_depth_zero :
    Print (.obj [("b", Value.nat 2), ("a", .obj [("x", Value.nat 1)])]) "create" "    "
        recorder []
      = (["" ++ ("a" ++ " \x7b\n"), " \x1b[32m+  \x1b[0mx = 1\n", "\x7d\n",
          "\x1b[32m+  \x1b[0m" ++ ("b" ++ " = 2\n")], none)
    ∧ visibleWidth "" = 0
    ∧ visibleWidth "\x1b[32m+  \x1b[0m" = 3
    ∧ visibleWidth (getIndent (0 * "    ".utf8ByteSize) true ++ createPrefix)
        ≠ visibleWidth (getIndent (0 * "    ".utf8ByteSize) false) := by
  decide

/-- C18, amended. In a map at depth `d`, with `b = d * len(indentStr)`: the key of a
prefixed leaf line begins at visible column `max(b, 3)` (the colour codes not counted, the
marker counted as three characters) and the key of an unprefixed opener line `<key> {` or
`<key> [` at column `b`. The two columns agree, and are `b`, exactly when `b ≥ 3`; when
`b < 3`, as always at depth zero, the leaf key begins at column three. -/
theorem key_columns (d : Nat) (pfx indentStr k : String) (x : Option Scalar)
    (m : List (String × Value)) (a : List Value)
    (hpfx : pfx = createPrefix ∨ pfx = destroyPrefix) :
    entryLines (k, Value.ofLeaf x) d pfx indentStr
        = [(spaces (d * indentStr.utf8ByteSize - 3) ++ pfx) ++ (k ++ " = " ++ valStr x ++ "\n")]
    ∧ visibleWidth (spaces (d * indentStr.utf8ByteSize - 3) ++ pfx)
        = max (d * indentStr.utf8ByteSize) 3
    ∧ (entryLines (k, .obj m) d pfx indentStr).head?
        = some (spaces (d * indentStr.utf8ByteSize) ++ (k ++ " \x7b\n"))
    ∧ (entryLines (k, .arr a) d pfx indentStr).head?
        = some (spaces (d * indentStr.utf8ByteSize) ++ (k ++ " [\n"))
    ∧ visibleWidth (spaces (d * indentStr.utf8ByteSize)) = d * indentStr.utf8ByteSize
    ∧ (visibleWidth (spaces (d * indentStr.utf8ByteSize - 3) ++ pfx)
          = visibleWidth (spaces (d * indentStr.utf8ByteSize))
        ↔ 3 ≤ d * indentStr.utf8ByteSize) := by
  have hne : pfx ≠ "" := by rcases hpfx with rfl | rfl <;> decide
  have hw : visibleWidth pfx = 3 := by rcases hpfx with rfl | rfl <;> decide
  have hlead : visibleWidth (spaces (d * indentStr.utf8ByteSize - 3) ++ pfx)
      = max (d * indentStr.utf8ByteSize) 3 := by
    rw [visibleWidth_spaces_append, hw]; omega
  refine ⟨?_, hlead, ?_, ?_, visibleWidth_spaces _, ?_⟩
  · rw [entryLines_leaf k x d pfx indentStr hne]
    simp only [String.append_assoc]
  · rw [entryLines_obj]
    simp only [String.append_assoc, List.singleton_append, List.cons_append, List.head?_cons]
  · rw [entryLines_arr]
    simp only [String.append_assoc, List.singleton_append, List.cons_append, List.head?_cons]
  · rw [hlead, visibleWidth_spaces]; omega

/-- Witness of the amended C18: depth one with four spaces, both keys at column four. -/
theorem key_columns_witness :
    entryLines ("x", Value.ofLeaf (some (.bool true))) 1 createPrefix "    "
        = [(spaces (1 * "    ".utf8ByteSize - 3) ++ createPrefix)
            ++ ("x" ++ " = " ++ valStr (some (.bool true)) ++ "\n")]
    ∧ visibleWidth (spaces (1 * "    ".utf8ByteSize - 3) ++ createPrefix)
        = max (1 * "    ".utf8ByteSize) 3 :=
  have h := key_columns 1 createPrefix "    " "x" (some (.bool true)) [] [] (Or.inl rfl)
  ⟨h.1, h.2.1⟩

/-! ## Occurrences of the prefix in a leaf line -/

theorem createPrefix_data :
    createPrefix.data = ['\x1b', '[', '3', '2', 'm', '+', ' ', ' ', '\x1b', '[', '0', 'm'] := rfl

theorem destroyPrefix_data :
    destroyPrefix.data = ['\x1b', '[', '3', '1', 'm', '-', ' ', ' ', '\x1b', '[', '0', 'm'] := rfl

theorem occurrences_cons_of_not (pat : List Char) (c : Char) (t : List Char)
    (h : pat.isPrefixOf (c :: t) = false) :
    occurrences pat (c :: t) = occurrences pat t := by
  rw [occurrences, h, if_neg (by decide), Nat.zero_add]

theorem occurrences_cons_of_match (pat : List Char) (c : Char) (t : List Char)
    (h : pat.isPrefixOf (c :: t) = true) :
    occurrences pat (c :: t) = 1 + occurrences pat t := by
  rw [occurrences, h, if_pos rfl]

theorem isPrefixOf_append_self (p rest : List Char) : p.isPrefixOf (p ++ rest) = true := by
  induction p with
  | nil => simp [List.isPrefixOf]
  | cons c p ih => rw [List.cons_append, List.isPrefixOf, ih, Bool.and_true]; exact beq_self_eq_true c

theorem occurrences_spaces (c : Char) (p : List Char) (hc : (c == ' ') = false) (n : Nat)
    (rest : List Char) :
    occurrences (c :: p) (List.replicate n ' ' ++ rest) = occurrences (c :: p) rest := by
  induction n with
  | zero => simp
  | succ n ih =>
    rw [List.replicate_succ, List.cons_append, occurrences_cons_of_not, ih]
    rw [List.isPrefixOf, hc, Bool.false_and]

theorem occurrences_createPrefix (rest : List Char) :
    occurrences createPrefix.data (createPrefix.data ++ rest)
      = 1 + occurrences createPrefix.data rest := by
  have h := isPrefixOf_append_self createPrefix.data rest
  rw [createPrefix_data] at h ⊢
  simp only [List.cons_append, List.nil_append] at h ⊢
  rw [occurrences_cons_of_match _ _ _ h]
  congr 1
  iterate 11 (refine (occurrences_cons_of_not _ _ _ ?_).trans ?_; · rfl)
  rfl

theorem occurrences_destroyPrefix (rest : List Char) :
    occurrences destroyPrefix.data (destroyPrefix.data ++ rest)
      = 1 + occurrences destroyPrefix.data rest := by
  have h := isPrefixOf_append_self destroyPrefix.data rest
  rw [destroyPrefix_data] at h ⊢
  simp only [List.cons_append, List.nil_append] at h ⊢
  rw [occurrences_cons_of_match _ _ _ h]
  congr 1
  iterate 11 (refine (occurrences_cons_of_not _ _ _ ?_).trans ?_; · rfl)
  rfl

/-- In a line made of indentation, the resolved prefix and a content, the prefix begins
once at its own place and besides only where it begins inside the content. -/
theorem occurrences_leaf_line (pfx : String) (hpfx : pfx = createPrefix ∨ pfx = destroyPrefix)
    (n : Nat) (content : String) :
    occurrences pfx.data (spaces n ++ pfx ++ content).data
      = 1 + occurrences pfx.data content.data := by
  rw [String.data_append, String.data_append, List.append_assoc, spaces]
  rcases hpfx with rfl | rfl
  · rw [← occurrences_createPrefix]
    conv_lhs => rw [createPrefix_data]
    conv_rhs => rw [createPrefix_data]
    exact occurrences_spaces _ _ (by decide) n _
  · rw [← occurrences_destroyPrefix]
    conv_lhs => rw [destroyPrefix_data]
    conv_rhs => rw [destroyPrefix_data]
    exact occurrences_spaces _ _ (by decide) n _

theorem dataLines_leaf (x : Option Scalar) (indent : Nat) (pfx indentStr : String) :
    dataLines (Value.ofLeaf x) indent pfx indentStr
      = [spaces (indent * indentStr.utf8ByteSize - 3) ++ pfx ++ valStr x ++ "\n"] := by
  cases x with
  | none => rw [Value.ofLeaf, dataLines, printData.eq_3, getIndent_true]; rfl
  | some x => rw [Value.ofLeaf, dataLines, printData.eq_4, getIndent_true]; rfl

/-- C15, as stated, fails: the string that is itself the prefix, passed to `Print` with
`create`, gives a leaf line in which the prefix occurs twice; so does a key that contains
the prefix. -/
theorem prefix_occurs_twice :
    Print (.scalar (.str createPrefix)) "create" "    " recorder []
        = ([createPrefix ++ createPrefix ++ "\n"], none)
    ∧ occurrences createPrefix.data (createPrefix ++ createPrefix ++ "\n").data = 2
    ∧ Print (.obj [(createPrefix, Value.nat 1)]) "create" "    " recorder []
        = ([createPrefix ++ createPrefix ++ " = 1\n"], none)
    ∧ occurrences createPrefix.data (createPrefix ++ createPrefix ++ " = 1\n").data = 2 := by
  decide

/-- C15, amended. Every leaf line is the indentation spaces, then the resolved prefix, then
the content: `<key> = <value>` in a map, `<value>` in an array and at top level. The prefix
begins in the line once at that place and, besides, wherever it begins inside the content;
so the line contains exactly one occurrence of the prefix exactly when the content, which is
made of the key and the value as they are, contains none. -/
theorem leaf_line_prefix_occurrences (pfx : String)
    (hpfx : pfx = createPrefix ∨ pfx = destroyPrefix) (k : String) (x : Option Scalar)
    (d : Nat) (indentStr : String) :
    entryLines (k, Value.ofLeaf x) d pfx indentStr
        = [spaces (d * indentStr.utf8ByteSize - 3) ++ pfx ++ (k ++ " = " ++ valStr x ++ "\n")]
    ∧ arrayLines [Value.ofLeaf x] d pfx indentStr
        = [spaces (d * indentStr.utf8ByteSize) ++ pfx ++ (valStr x ++ "\n")]
    ∧ dataLines (Value.ofLeaf x) 0 pfx indentStr = [spaces 0 ++ pfx ++ (valStr x ++ "\n")]
    ∧ (Print (Value.ofLeaf x) "create" indentStr recorder []).1
        = dataLines (Value.ofLeaf x) 0 createPrefix indentStr
    ∧ (Print (Value.ofLeaf x) "destroy" indentStr recorder []).1
        = dataLines (Value.ofLeaf x) 0 destroyPrefix indentStr
    ∧ (∀ (n : Nat) (content : String),
        occurrences pfx.data (spaces n ++ pfx ++ content).data
          = 1 + occurrences pfx.data content.data)
    ∧ (∀ (n : Nat) (content : String),
        occurrences pfx.data (spaces n ++ pfx ++ content).data = 1
          ↔ occurrences pfx.data content.data = 0) := by
  have hne : pfx ≠ "" := by rcases hpfx with rfl | rfl <;> decide
  refine ⟨?_, ?_, ?_, rfl, rfl, occurrences_leaf_line pfx hpfx, fun n content => ?_⟩
  · rw [entryLines_leaf k x d pfx indentStr hne]
    simp only [String.append_assoc]
  · rw [arrayLines_leaf]
    simp only [String.append_assoc]
  · rw [dataLines_leaf, Nat.zero_mul]
    simp only [String.append_assoc]
  · rw [occurrences_leaf_line pfx hpfx]; omega

/-- Witness of the amended C15: the line of `"name": "x"` at depth one holds the prefix
once. -/
theorem leaf_line_prefix_occurrences_witness :
    entryLines ("name", Value.ofLeaf (some (.str "x"))) 1 createPrefix "    "
        = [spaces (1 * "    ".utf8ByteSize - 3) ++ createPrefix
            ++ ("name" ++ " = " ++ valStr (some (.str "x")) ++ "\n")]
    ∧ occurrences createPrefix.data
        (spaces 1 ++ createPrefix ++ ("name" ++ " = " ++ "x" ++ "\n")).data = 1 :=
  have h := leaf_line_prefix_occurrences createPrefix (Or.inl rfl) "name" (some (.str "x")) 1
    "    "
  ⟨h.1, (h.2.2.2.2.2.2 1 _).2 (by decide)⟩

/-! ## Numbers -/

theorem toDigitsCore_length (fuel n k : Nat) (acc : List Char) (hfuel : n < fuel)
    (hk : n < 10 ^ (k + 1)) :
    1 + acc.length ≤ (Nat.toDigitsCore 10 fuel n acc).length
    ∧ (Nat.toDigitsCore 10 fuel n acc).length ≤ k + 1 + acc.length := by
  induction fuel generalizing n k acc with
  | zero => omega
  | succ fuel ih =>
    rw [Nat.toDigitsCore]
    by_cases h0 : n / 10 = 0
    · simp only [h0, if_true, List.length_cons]
      omega
    · simp only [h0, if_false]
      have hn10 : 10 ≤ n := by
        by_contra hlt
        exact h0 (Nat.div_eq_of_lt (by omega))
      cases k with
      | zero => omega
      | succ k =>
        have hk' : n / 10 < 10 ^ (k + 1) := by
          rw [Nat.div_lt_iff_lt_mul (by decide)]
          rw [pow_succ] at hk
          exact hk
        have := ih (n / 10) k (Nat.digitChar (n % 10) :: acc) (by omega) hk'
        simp only [List.length_cons] at this
        omega

theorem toDigits_length (n : Nat) (hn : n < 1000000) :
    1 ≤ (Nat.toDigits 10 n).length ∧ (Nat.toDigits 10 n).length ≤ 6 := by
  have := toDigitsCore_length (n + 1) n 5 [] (by omega) (by norm_num; omega)
  simpa [Nat.toDigits] using this

theorem takeWhile_zero_eq_replicate (l : List Char) :
    l.takeWhile (· == '0') = List.replicate (l.takeWhile (· == '0')).length '0' := by
  induction l with
  | nil => rfl
  | cons c l ih =>
    by_cases hc : c = '0'
    · subst hc
      simp only [List.takeWhile_cons, beq_self_eq_true, if_true, List.length_cons,
        List.replicate_succ]
      rw [← ih]
    · have : (c == '0') = false := by simpa using hc
      simp [List.takeWhile_cons, this]

theorem trimZeros_append (l : List Char) :
    trimZeros l ++ List.replicate (l.length - (trimZeros l).length) '0' = l := by
  have hsplit := List.takeWhile_append_dropWhile (· == '0') l.reverse
  have hlen : l.length = (l.reverse.takeWhile (· == '0')).length
      + (l.reverse.dropWhile (· == '0')).length := by
    have := congrArg List.length hsplit
    simp only [List.length_append, List.length_reverse] at this
    omega
  have hrev : l = (l.reverse.dropWhile (· == '0')).reverse
      ++ (l.reverse.takeWhile (· == '0')).reverse := by
    have := congrArg List.reverse hsplit
    rw [List.reverse_append, List.reverse_reverse] at this
    exact this.symm
  have htl : (trimZeros l).length = (l.reverse.dropWhile (· == '0')).length := by
    rw [trimZeros, List.length_reverse]
  rw [htl]
  have hk : l.length - (l.reverse.dropWhile (· == '0')).length
      = (l.reverse.takeWhile (· == '0')).length := by omega
  rw [hk, trimZeros]
  conv_rhs => rw [hrev]
  congr 1
  rw [takeWhile_zero_eq_replicate l.reverse, List.reverse_replicate, List.length_replicate]

theorem trimZeros_length_le (l : List Char) : (trimZeros l).length ≤ l.length := by
  have := congrArg List.length (trimZeros_append l)
  simp only [List.length_append, List.length_replicate] at this
  omega

theorem stringsRepeat_zero (n : Nat) : stringsRepeat "0" n = String.mk (List.replicate n '0') := by
  rw [stringsRepeat, String.join_eq]
  congr 1
  induction n with
  | zero => rfl
  | succ n ih => simp only [List.replicate_succ, List.map_cons, List.flatten_cons, ih]; rfl

theorem formatFloat_ofNat (n : Nat) (hn : n < 1000000) :
    formatFloat (Float64.ofNat n) = Nat.repr n := by
  by_cases h0 : n = 0
  · subst h0; decide
  · obtain ⟨h1, h6⟩ := toDigits_length n hn
    have htl := trimZeros_length_le (Nat.toDigits 10 n)
    have hprec : (((trimZeros (Nat.toDigits 10 n)).length : Int)
        - ((Nat.toDigits 10 n).length : Int)).toNat = 0 := by omega
    have hcond : ¬ ((((Nat.toDigits 10 n).length : Int) - 1 < -4)
        ∨ (((Nat.toDigits 10 n).length : Int) - 1 ≥ 6)) := by omega
    have hdp : (0 : Int) < ((Nat.toDigits 10 n).length : Int) := by omega
    have hmin : min (trimZeros (Nat.toDigits 10 n)).length (Nat.toDigits 10 n).length
        = (trimZeros (Nat.toDigits 10 n)).length := by omega
    simp only [Float64.ofNat, if_neg h0, formatFloat, if_neg hcond, hprec, fmtF, hdp, if_true,
      Int.toNat_ofNat, hmin, List.take_length, lt_self_iff_false, if_false, Bool.false_eq_true,
      stringsRepeat_zero]
    rw [String.append_empty, String.empty_append, Nat.repr, List.asString]
    show String.mk (_ ++ _) = _
    rw [trimZeros_append]

theorem formatFloat_neg (f : Float64) :
    formatFloat { f with neg := true } = "-" ++ formatFloat { f with neg := false } := by
  simp only [formatFloat, fmtE, fmtF, if_true, Bool.false_eq_true, if_false]
  split <;> simp only [String.append_assoc, String.empty_append]

theorem formatFloat_ofInt_neg (n : Nat) (h0 : 0 < n) (hn : n < 1000000) :
    formatFloat (Float64.ofInt (-(n : Int))) = "-" ++ Nat.repr n := by
  have hneg : decide (-(n : Int) < 0) = true := by simpa using h0
  have hpos : Float64.ofNat n = { Float64.ofNat n with neg := false } := by
    rw [Float64.ofNat, if_neg (by omega)]
  rw [Float64.ofInt, hneg, Int.natAbs_neg, Int.natAbs_ofNat, formatFloat_neg, ← hpos,
    formatFloat_ofNat n hn]

/-- C19, as stated, fails: the number `1234567`, held as a `float64`, is written by `%v`
as `1.234567e+06`, not as `1234567`; the exponent form begins at `1000000`. -/
theorem large_integer_in_exponent_form :
    sprintV (.num (Float64.ofNat 1234567)) = "1.234567e+06"
    ∧ Nat.repr 1234567 = "1234567"
    ∧ Print (Value.nat 1234567) "create" "    " recorder []
        = (["\x1b[32m+  \x1b[0m1.234567e+06\n"], none)
    ∧ Print (.obj [("n", Value.nat 1234567)]) "create" "    " recorder []
        = (["\x1b[32m+  \x1b[0mn = 1.234567e+06\n"], none)
    ∧ sprintV (.num (Float64.ofNat 1000000)) = "1e+06"
    ∧ sprintV (.num (Float64.ofNat 999999)) = "999999"
    ∧ sprintV (.num (Float64.ofInt (-1234567))) = "-1.234567e+06" := by
  decide

theorem toDigitsCore_length_ge (fuel n k : Nat) (acc : List Char) (hfuel : n < fuel)
    (hk : 10 ^ k ≤ n) :
    k + 1 + acc.length ≤ (Nat.toDigitsCore 10 fuel n acc).length := by
  induction fuel generalizing n k acc with
  | zero => omega
  | succ fuel ih =>
    rw [Nat.toDigitsCore]
    by_cases h0 : n / 10 = 0
    · have hn : n < 10 := by
        by_contra hge
        have : 1 ≤ n / 10 := (Nat.le_div_iff_mul_le (by decide)).2 (by omega)
        omega
      have hk0 : k = 0 := by
        by_contra hne
        have : 10 ^ 1 ≤ 10 ^ k := Nat.pow_le_pow_right (by decide) (by omega)
        omega
      simp only [h0, if_true, List.length_cons]
      omega
    · simp only [h0, if_false]
      have hn10 : 10 ≤ n := by
        by_contra hlt
        exact h0 (Nat.div_eq_of_lt (by omega))
      cases k with
      | zero =>
        have := ih (n / 10) 0 (Nat.digitChar (n % 10) :: acc) (by omega) (by omega)
        simp only [List.length_cons] at this
        omega
      | succ k =>
        have hk' : 10 ^ k ≤ n / 10 := by
          rw [Nat.le_div_iff_mul_le (by decide)]
          rw [pow_succ] at hk
          exact hk
        have := ih (n / 10) k (Nat.digitChar (n % 10) :: acc) (by omega) hk'
        simp only [List.length_cons] at this
        omega

theorem toDigits_length_ge (n : Nat) (hn : 1000000 ≤ n) : 7 ≤ (Nat.toDigits 10 n).length := by
  have := toDigitsCore_length_ge (n + 1) n 6 [] (by omega) (by norm_num; omega)
  simpa [Nat.toDigits] using this

theorem digitChar_ne_e (d : Nat) (hd : d < 10) : Nat.digitChar d ≠ 'e' := by
  interval_cases d <;> decide

theorem digitChar_ne_minus (d : Nat) (hd : d < 10) : Nat.digitChar d ≠ '-' := by
  interval_cases d <;> decide

theorem toDigitsCore_no_e (fuel n : Nat) (acc : List Char) (hacc : 'e' ∉ acc) :
    'e' ∉ Nat.toDigitsCore 10 fuel n acc := by
  induction fuel generalizing n acc with
  | zero => exact hacc
  | succ fuel ih =>
    rw [Nat.toDigitsCore]
    have hd : 'e' ∉ Nat.digitChar (n % 10) :: acc := by
      intro h
      rcases List.mem_cons.1 h with h | h
      · exact digitChar_ne_e (n % 10) (Nat.mod_lt _ (by decide)) h.symm
      · exact hacc h
    by_cases h0 : n / 10 = 0
    · simp only [h0, if_true]; exact hd
    · simp only [h0, if_false]; exact ih _ _ hd

theorem natRepr_no_e (n : Nat) : 'e' ∉ (Nat.repr n).data :=
  toDigitsCore_no_e (n + 1) n [] (by simp)

theorem intRepr_no_e (z : Int) : 'e' ∉ (Int.repr z).data := by
  cases z with
  | ofNat m => exact natRepr_no_e m
  | negSucc m =>
    intro h
    have h' : 'e' ∈ "-".data ++ (Nat.repr (m + 1)).data := by
      rw [← String.data_append]; exact h
    rcases List.mem_append.1 h' with h1 | h1
    · exact absurd h1 (by decide)
    · exact natRepr_no_e _ h1

theorem formatFloat_of_large (f : Float64) (h : 7 ≤ f.dp) :
    formatFloat f = fmtE f (f.digits.length - 1) := by
  have hcond : (f.dp - 1 < -4) ∨ (f.dp - 1 ≥ 6) := Or.inr (by omega)
  simp only [formatFloat, if_pos hcond]

theorem fmtE_mem_e (f : Float64) (prec : Nat) : 'e' ∈ (fmtE f prec).data := by
  simp only [fmtE, String.data_append, List.mem_append]
  exact Or.inl (Or.inl (Or.inr (by decide)))

theorem formatFloat_mem_e (f : Float64) (h : 7 ≤ f.dp) : 'e' ∈ (formatFloat f).data := by
  rw [formatFloat_of_large f h]
  exact fmtE_mem_e f _

/-- The exponent form that `%v` gives a `float64` of decimal exponent six or more: sign,
first digit, the other digits behind a point if there are any, `e+` and the exponent in
at least two digits. -/
theorem formatFloat_exponent_form (f : Float64) (h : 7 ≤ f.dp) (hd : f.digits ≠ []) :
    formatFloat f
      = (if f.neg then "-" else "") ++ String.mk [f.digits.headD '0']
        ++ (if 1 < f.digits.length then "." ++ String.mk (f.digits.drop 1) else "")
        ++ "e" ++ "+" ++ expDigits (f.dp - 1).natAbs := by
  have hlen : 1 ≤ f.digits.length := by
    cases hf : f.digits with
    | nil => exact absurd hf hd
    | cons c cs => simp
  have hne : ¬ f.digits.length = 0 := by omega
  have hexp : ¬ (f.dp - 1 < 0) := by omega
  have hmin : min f.digits.length (f.digits.length - 1 + 1) = f.digits.length := by omega
  have hz : f.digits.length - 1 + 1 - max f.digits.length 1 = 0 := by omega
  rw [formatFloat_of_large f h]
  simp only [fmtE, hne, if_false, hexp, hmin, hz, List.take_length]
  by_cases h1 : 1 < f.digits.length
  · have : 0 < f.digits.length - 1 := by omega
    simp only [this, if_true, h1]
    have h0 : stringsRepeat "0" 0 = "" := rfl
    rw [h0, String.append_empty]
  · have : ¬ 0 < f.digits.length - 1 := by omega
    simp only [this, if_false, h1]

theorem ofNat_neg (n : Nat) : (Float64.ofNat n).neg = false := by
  rw [Float64.ofNat]; split <;> rfl

theorem ofNat_dp (n : Nat) (hn : n ≠ 0) :
    (Float64.ofNat n).dp = ((Nat.toDigits 10 n).length : Int) := by
  rw [Float64.ofNat, if_neg hn]

theorem ofInt_dp (z : Int) : (Float64.ofInt z).dp = (Float64.ofNat z.natAbs).dp := rfl

theorem ofInt_ofNat (m : Nat) : Float64.ofInt (Int.ofNat m) = Float64.ofNat m := by
  have h : decide (Int.ofNat m < 0) = false := by
    simp only [decide_eq_false_iff_not, not_lt]; exact Int.ofNat_nonneg m
  have hneg := ofNat_neg m
  rw [Float64.ofInt, h]
  show ({ Float64.ofNat m with neg := false } : Float64) = Float64.ofNat m
  cases hf : Float64.ofNat m with
  | mk neg digits dp =>
    rw [hf] at hneg
    simp only at hneg
    subst hneg
    rfl

theorem sprintV_ofInt_small (z : Int) (hz : z.natAbs < 1000000) :
    sprintV (.num (Float64.ofInt z)) = Int.repr z := by
  cases z with
  | ofNat m =>
    rw [ofInt_ofNat]
    exact formatFloat_ofNat m (by simpa using hz)
  | negSucc m =>
    have hm : m + 1 < 1000000 := by simpa [Int.natAbs] using hz
    have := formatFloat_ofInt_neg (m + 1) (by omega) hm
    rw [show (-((m + 1 : Nat) : Int)) = Int.negSucc m from rfl] at this
    exact this

theorem sprintV_ofInt_large (z : Int) (hz : 1000000 ≤ z.natAbs) :
    'e' ∈ (sprintV (.num (Float64.ofInt z))).data
    ∧ sprintV (.num (Float64.ofInt z)) ≠ Int.repr z
    ∧ sprintV (.num (Float64.ofInt z))
        = fmtE (Float64.ofInt z) ((Float64.ofInt z).digits.length - 1) := by
  have hdp : 7 ≤ (Float64.ofInt z).dp := by
    rw [ofInt_dp, ofNat_dp _ (by omega)]
    have := toDigits_length_ge z.natAbs hz
    omega
  have hmem : 'e' ∈ (sprintV (.num (Float64.ofInt z))).data := formatFloat_mem_e _ hdp
  refine ⟨hmem, fun heq => ?_, formatFloat_of_large _ hdp⟩
  rw [heq] at hmem
  exact intRepr_no_e z hmem

/-- C19, amended. A number is written by `%v`, and the text of an integer-valued number
depends on its magnitude. The text of every scalar stands unchanged on its leaf line under a
key of a map, as an element of an array and at top level. For an integer `z` with
`|z| < 1000000`, held as a `float64`, that text is the plain decimal numeral of `z` without
exponent (`-` in front when negative; `1`, `2`, `5` are written `1`, `2`, `5`). For an
integer `z` with `1000000 ≤ |z| < 2 ^ 53` the text is in exponent form, contains `e` and is
not the decimal numeral of `z`; and every `float64` of decimal exponent six or more, which
includes the integer-valued ones from `2 ^ 53` on, is written as sign, first digit, the
other digits behind a point, `e+` and the exponent. -/
theorem integer_text_by_magnitude (z : Int) (k : String) (d : Nat) (pfx indentStr : String)
    (hpfx : pfx ≠ "") :
    (∀ x : Scalar, entryLines (k, .scalar x) d pfx indentStr
        = [spaces (d * indentStr.utf8ByteSize - 3) ++ pfx ++ k ++ " = " ++ sprintV x ++ "\n"])
    ∧ (∀ x : Scalar, arrayLines [.scalar x] d pfx indentStr
        = [spaces (d * indentStr.utf8ByteSize) ++ pfx ++ sprintV x ++ "\n"])
    ∧ (∀ x : Scalar, Print (.scalar x) "create" indentStr recorder []
        = (["\x1b[32m+  \x1b[0m" ++ sprintV x ++ "\n"], none))
    ∧ (∀ x : Scalar, Print (.scalar x) "destroy" indentStr recorder []
        = (["\x1b[31m-  \x1b[0m" ++ sprintV x ++ "\n"], none))
    ∧ (z.natAbs < 1000000 →
        sprintV (.num (Float64.ofInt z)) = Int.repr z
        ∧ entryLines (k, Value.int z) d pfx indentStr
            = [spaces (d * indentStr.utf8ByteSize - 3) ++ pfx ++ k ++ " = " ++ Int.repr z
                ++ "\n"]
        ∧ arrayLines [Value.int z] d pfx indentStr
            = [spaces (d * indentStr.utf8ByteSize) ++ pfx ++ Int.repr z ++ "\n"]
        ∧ Print (Value.int z) "create" indentStr recorder []
            = (["\x1b[32m+  \x1b[0m" ++ Int.repr z ++ "\n"], none)
        ∧ Print (Value.int z) "destroy" indentStr recorder []
            = (["\x1b[31m-  \x1b[0m" ++ Int.repr z ++ "\n"], none))
    ∧ (1000000 ≤ z.natAbs → z.natAbs < 2 ^ 53 →
        'e' ∈ (sprintV (.num (Float64.ofInt z))).data
        ∧ sprintV (.num (Float64.ofInt z)) ≠ Int.repr z
        ∧ sprintV (.num (Float64.ofInt z))
            = fmtE (Float64.ofInt z) ((Float64.ofInt z).digits.length - 1))
    ∧ (∀ f : Float64, 7 ≤ f.dp → f.digits ≠ [] →
        sprintV (.num f)
          = (if f.neg then "-" else "") ++ String.mk [f.digits.headD '0']
            ++ (if 1 < f.digits.length then "." ++ String.mk (f.digits.drop 1) else "")
            ++ "e" ++ "+" ++ expDigits (f.dp - 1).natAbs)
    ∧ (∀ n : Nat, Value.int (n : Int) = Value.nat n)
    ∧ sprintV (.num (Float64.ofInt 1)) = "1"
    ∧ sprintV (.num (Float64.ofInt 2)) = "2"
    ∧ sprintV (.num (Float64.ofInt 5)) = "5" := by
  have h0 : getIndent (0 * indentStr.utf8ByteSize) true = "" := by
    rw [getIndent_true, Nat.zero_mul]; rfl
  have hentry : ∀ x : Scalar, entryLines (k, .scalar x) d pfx indentStr
      = [spaces (d * indentStr.utf8ByteSize - 3) ++ pfx ++ k ++ " = " ++ sprintV x ++ "\n"] :=
    fun x => entryLines_leaf k (some x) d pfx indentStr hpfx
  have harr : ∀ x : Scalar, arrayLines [.scalar x] d pfx indentStr
      = [spaces (d * indentStr.utf8ByteSize) ++ pfx ++ sprintV x ++ "\n"] :=
    fun x => arrayLines_leaf (some x) d pfx indentStr
  have htop : ∀ (x : Scalar) (p : String),
      printData (.scalar x) 0 p indentStr recorder [] = ([p ++ sprintV x ++ "\n"], none) := by
    intro x p
    rw [printData.eq_4, h0, String.empty_append]
    rfl
  have hcreate : ∀ x : Scalar, Print (.scalar x) "create" indentStr recorder []
      = (["\x1b[32m+  \x1b[0m" ++ sprintV x ++ "\n"], none) := by
    intro x; rw [Print_create]; exact htop x _
  have hdestroy : ∀ x : Scalar, Print (.scalar x) "destroy" indentStr recorder []
      = (["\x1b[31m-  \x1b[0m" ++ sprintV x ++ "\n"], none) := by
    intro x; rw [Print_destroy]; exact htop x _
  refine ⟨hentry, harr, hcreate, hdestroy, fun hz => ?_, fun hz _ => sprintV_ofInt_large z hz,
    fun f hf hd => formatFloat_exponent_form f hf hd, fun n => ?_, by decide, by decide,
    by decide⟩
  · have hv := sprintV_ofInt_small z hz
    refine ⟨hv, ?_, ?_, ?_, ?_⟩
    · rw [Value.int, hentry, hv]
    · rw [Value.int, harr, hv]
    · rw [Value.int, hcreate, hv]
    · rw [Value.int, hdestroy, hv]
  · rw [Value.int, Value.nat]
    exact congrArg (fun f => Value.scalar (Scalar.num f)) (ofInt_ofNat n)

/-- Witness of the amended C19: `-42` under the key `n` at depth one, and `120`. -/
theorem integer_text_by_magnitude_witness :
    entryLines ("n", Value.int (-42)) 1 createPrefix "    "
        = [" \x1b[32m+  \x1b[0mn = -42\n"]
    ∧ arrayLines [Value.int 120] 1 createPrefix "    " = ["    \x1b[32m+  \x1b[0m120\n"]
    ∧ sprintV (.num (Float64.ofInt 1234567)) ≠ Int.repr 1234567 :=
  ⟨((integer_text_by_magnitude (-42) "n" 1 createPrefix "    " (by decide)).2.2.2.2.1
      (by decide)).2.1.trans (by decide),
   ((integer_text_by_magnitude 120 "n" 1 createPrefix "    " (by decide)).2.2.2.2.1
      (by decide)).2.2.1.trans (by decide),
   ((integer_text_by_magnitude 1234567 "n" 1 createPrefix "    " (by decide)).2.2.2.2.2.1
      (by decide) (by decide)).2.1⟩

/-! ## The indent unit counts by its length only -/

theorem loopBody_sameUnit (i j : String) (hij : i.utf8ByteSize = j.utf8ByteSize) (key : String)
    (value : Value) (h : SameUnitData i j value) (indent : Nat) (pfx : String) (σ : Type)
    (w : Writer σ) (s : σ) :
    loopBody (key, value) indent pfx i w s = loopBody (key, value) indent pfx j w s := by
  cases value with
  | null => rw [loopBody.eq_3, loopBody.eq_3, hij]
  | scalar x => rw [loopBody.eq_4, loopBody.eq_4, hij]
  | arr a =>
    have ha : ∀ (σ : Type) (w : Writer σ) (s : σ),
        printArray a (indent + 1) pfx i w s = printArray a (indent + 1) pfx j w s :=
      fun σ w s => h (indent + 1) pfx σ w s
    rw [loopBody.eq_2, loopBody.eq_2, hij, ha]
  | obj m => rw [loopBody.eq_1, loopBody.eq_1, hij, h (indent + 1) pfx]

theorem printData_obj_sameUnit (i j : String) (hij : i.utf8ByteSize = j.utf8ByteSize)
    (v : List (String × Value)) (h : ∀ e ∈ v, SameUnitData i j e.2) :
    SameUnitData i j (.obj v) := by
  intro indent pfx σ w s
  rw [printData_obj, printData_obj]
  congr 1
  funext t key
  cases hl : v.lookup key with
  | none => rfl
  | some value =>
    exact loopBody_sameUnit i j hij key value (h _ (mem_of_lookup v key value hl)) indent pfx σ w t

theorem printArray_single_sameUnit (i j : String) (hij : i.utf8ByteSize = j.utf8ByteSize)
    (elem : Value) (h : SameUnitElem i j elem) (indent : Nat) (pfx : String) (σ : Type)
    (w : Writer σ) (s : σ) :
    printArray [elem] indent pfx i w s = printArray [elem] indent pfx j w s := by
  cases elem with
  | null => rw [printArray_null, printArray_null, hij]
  | scalar x => rw [printArray_scalar, printArray_scalar, hij]
  | arr v =>
    have hv : ∀ (σ : Type) (w : Writer σ) (s : σ),
        printArray v (indent + 1) pfx i w s = printArray v (indent + 1) pfx j w s :=
      fun σ w s => h.1 (indent + 1) pfx σ w s
    rw [printArray_arr, printArray_arr, hij, hv]
  | obj v =>
    by_cases hlen : v.length = 1
    · match v, hlen with
      | [(key, value)], _ =>
        by_cases hvalue : ∃ m, value = .obj m
        · obtain ⟨m, rfl⟩ := hvalue
          have hm := h.2 _ rfl (key, .obj m) (by simp) (indent + 1) pfx
          rw [printArray_wrapper, printArray_wrapper, hij, hm]
        · have hne : ∀ m, value ≠ .obj m := fun m hm => hvalue ⟨m, hm⟩
          rw [printArray_single_other key value hne, printArray_single_other key value hne]
    · rw [printArray_block v hlen, printArray_block v hlen, hij, h.1 (indent + 1) pfx]

theorem printArray_sameUnit_of (i j : String) (hij : i.utf8ByteSize = j.utf8ByteSize)
    (xs : List Value) (h : ∀ x ∈ xs, SameUnitElem i j x) (indent : Nat) (pfx : String)
    (σ : Type) (w : Writer σ) (s : σ) :
    printArray xs indent pfx i w s = printArray xs indent pfx j w s := by
  induction xs generalizing s with
  | nil => rfl
  | cons x xs ih =>
    rw [printArray_cons, printArray_cons x xs,
      printArray_single_sameUnit i j hij x (h x (by simp)) indent pfx σ w s,
      ih (fun y hy => h y (List.mem_cons_of_mem _ hy))]

theorem sameUnitElem_all (i j : String) (hij : i.utf8ByteSize = j.utf8ByteSize) :
    ∀ v, SameUnitElem i j v := by
  refine Value.induct ?_ ?_ ?_ ?_
  · refine ⟨fun indent pfx σ w s => ?_, fun es h => by cases h⟩
    rw [printData.eq_3, printData.eq_3, hij]
  · intro x
    refine ⟨fun indent pfx σ w s => ?_, fun es h => by cases h⟩
    rw [printData.eq_4, printData.eq_4, hij]
  · intro xs h
    refine ⟨fun indent pfx σ w s => ?_, fun es h => by cases h⟩
    rw [printData.eq_2, printData.eq_2]
    exact printArray_sameUnit_of i j hij xs h indent pfx σ w s
  · intro es h
    refine ⟨printData_obj_sameUnit i j hij es (fun e he => (h e he).1), fun es' h' => ?_⟩
    cases h'
    exact fun e he => (h e he).1

/-- Indent units of the same length give the same calls of `printData` on every sink. -/
theorem printData_sameUnit {σ : Type} (i j : String) (hij : i.utf8ByteSize = j.utf8ByteSize)
    (data : Value) (indent : Nat) (pfx : String) (w : Writer σ) (s : σ) :
    printData data indent pfx i w s = printData data indent pfx j w s := by
  rw [printData_frame, printData_frame data indent pfx j]
  congr 2
  exact (sameUnitElem_all i j hij data).1 indent pfx _ recorder []

/-- C16. Only the length of the indent unit matters, not its characters: two indent units of
the same length (`len`, the number of bytes) give the same result of `Print` on every sink,
for every tree and every tag, hence byte-identical output for both valid tags; and every
indentation that the renderer writes is a run of space characters whose number is computed
from that length. -/
theorem indent_unit_length_only {σ : Type} (i j : String)
    (hij : i.utf8ByteSize = j.utf8ByteSize) (data : Value) (operationTag : String)
    (w : Writer σ) (s : σ) (baseIndent : Nat) :
    Print data operationTag i w s = Print data operationTag j w s
    ∧ Print data "create" i buffer "" = Print data "create" j buffer ""
    ∧ Print data "destroy" i buffer "" = Print data "destroy" j buffer ""
    ∧ (∀ (d : Nat) (pfx : String),
        printData data d pfx i w s = printData data d pfx j w s)
    ∧ getIndent baseIndent false = String.mk (List.replicate baseIndent ' ')
    ∧ getIndent baseIndent true = String.mk (List.replicate (baseIndent - 3) ' ')
    ∧ getIndentArray baseIndent = String.mk (List.replicate baseIndent ' ') := by
  refine ⟨?_, ?_, ?_, fun d pfx => printData_sameUnit i j hij data d pfx w s,
    getIndent_false baseIndent, getIndent_true baseIndent, getIndentArray_eq baseIndent⟩
  · by_cases h1 : operationTag = "create"
    · subst h1
      rw [Print_create, Print_create]
      exact printData_sameUnit i j hij data 0 _ w s
    · by_cases h2 : operationTag = "destroy"
      · subst h2
        rw [Print_destroy, Print_destroy]
        exact printData_sameUnit i j hij data 0 _ w s
      · rw [Print, if_neg h1, if_neg h2, Print, if_neg h1, if_neg h2]
  · rw [Print_create, Print_create]
    exact printData_sameUnit i j hij data 0 _ buffer ""
  · rw [Print_destroy, Print_destroy]
    exact printData_sameUnit i j hij data 0 _ buffer ""

/-- Witness of C16: four spaces, four tabs and `abcd` on `{"a": {"x": [1]}}`. -/
theorem indent_unit_length_only_witness :
    Print (.obj [("a", .obj [("x", .arr [Value.nat 1])])]) "create" "    " buffer ""
        = Print (.obj [("a", .obj [("x", .arr [Value.nat 1])])]) "create" "\t\t\t\t" buffer ""
    ∧ Print (.obj [("a", .obj [("x", .arr [Value.nat 1])])]) "create" "    " buffer ""
        = Print (.obj [("a", .obj [("x", .arr [Value.nat 1])])]) "create" "abcd" buffer "" :=
  ⟨(indent_unit_length_only "    " "\t\t\t\t" (by decide) _ "create" buffer "" 0).1,
   (indent_unit_length_only "    " "abcd" (by decide) _ "create" buffer "" 0).1⟩

/-! ## The rendering depends on the content of the tree only -/

theorem arrayLines_arr (inner : List Value) (d : Nat) (pfx indentStr : String) :
    arrayLines [.arr inner] d pfx indentStr
      = [spaces (d * indentStr.utf8ByteSize) ++ "[\n"]
        ++ arrayLines inner (d + 1) pfx indentStr
        ++ [spaces (d * indentStr.utf8ByteSize) ++ "]\n"] := by
  rw [arrayLines, printArray_arr, printArray_frame, writeAll_recorder, getIndentArray_eq]
  rfl

theorem arrayLines_congr (d : Nat) (pfx i : String) (xs ys : List Value)
    (hlen : xs.length = ys.length)
    (h : ∀ (n : Nat) (x y : Value), xs[n]? = some x → ys[n]? = some y →
      arrayLines [x] d pfx i = arrayLines [y] d pfx i) :
    arrayLines xs d pfx i = arrayLines ys d pfx i := by
  induction xs generalizing ys with
  | nil =>
    cases ys with
    | nil => rfl
    | cons y ys => simp at hlen
  | cons x xs ih =>
    cases ys with
    | nil => simp at hlen
    | cons y ys =>
      rw [arrayLines_cons, arrayLines_cons y ys, h 0 x y (by simp) (by simp),
        ih ys (by simpa using hlen) (fun n a b ha hb => h (n + 1) a b (by simpa using ha)
          (by simpa using hb))]

theorem entries_flatten_congr (d : Nat) (pfx i : String) (S S' : List (String × Value))
    (hkeys : S.map Prod.fst = S'.map Prod.fst)
    (h : ∀ e ∈ S, ∀ e' ∈ S', e.1 = e'.1 → entryLines e d pfx i = entryLines e' d pfx i) :
    (S.map (fun e => entryLines e d pfx i)).flatten
      = (S'.map (fun e => entryLines e d pfx i)).flatten := by
  induction S generalizing S' with
  | nil =>
    cases S' with
    | nil => rfl
    | cons e' S' => simp at hkeys
  | cons e S ih =>
    cases S' with
    | nil => simp at hkeys
    | cons e' S' =>
      simp only [List.map_cons, List.cons.injEq] at hkeys
      simp only [List.map_cons, List.flatten_cons]
      rw [h e (by simp) e' (by simp) hkeys.1,
        ih S' hkeys.2 (fun a ha a' ha' => h a (List.mem_cons_of_mem _ ha) a'
          (List.mem_cons_of_mem _ ha'))]

theorem value_unique_of_nodupKeys (es : List (String × Value)) (hnd : NodupKeys es)
    (k : String) (x y : Value) (hx : (k, x) ∈ es) (hy : (k, y) ∈ es) : x = y := by
  have h1 := lookup_of_mem es hnd (k, x) hx
  have h2 := lookup_of_mem es hnd (k, y) hy
  simp only at h1 h2
  rw [h1] at h2
  exact Option.some.inj h2

theorem sameLines_obj (es es' : List (String × Value)) (hnd : NodupKeys es)
    (hnd' : NodupKeys es') (hkeys : (es.map Prod.fst).Perm (es'.map Prod.fst))
    (hsame : ∀ (k : String) (x y : Value), (k, x) ∈ es → (k, y) ∈ es' → SameJSON x y)
    (h : ∀ (k : String) (x y : Value), (k, x) ∈ es → (k, y) ∈ es' → SameLines x y) :
    SameLines (.obj es) (.obj es') := by
  have hdata : ∀ (d : Nat) (pfx i : String),
      dataLines (.obj es) d pfx i = dataLines (.obj es') d pfx i := by
    intro d pfx i
    obtain ⟨S, hS, hsS⟩ := exists_sorted_entries es hnd
    obtain ⟨S', hS', hsS'⟩ := exists_sorted_entries es' hnd'
    rw [dataLines_obj_sorted es S hS hsS, dataLines_obj_sorted es' S' hS' hsS']
    have hk : S.map Prod.fst = S'.map Prod.fst := by
      rw [← sortStrings_eq_of_sorted (es.map Prod.fst) (S.map Prod.fst) (hS.map Prod.fst)
          (List.pairwise_map.2 hsS),
        ← sortStrings_eq_of_sorted (es.map Prod.fst) (S'.map Prod.fst)
          ((hS'.map Prod.fst).trans hkeys.symm) (List.pairwise_map.2 hsS')]
    refine entries_flatten_congr d pfx i S S' hk ?_
    intro e he e' he' hee'
    obtain ⟨k, x⟩ := e
    obtain ⟨k', y⟩ := e'
    simp only at hee'
    subst hee'
    exact (h k x y (hS.subset he) (hS'.subset he')).2.2 k d pfx i
  refine ⟨hdata, ?_, ?_⟩
  · intro d pfx i
    have hlen : es.length = es'.length := by
      have := hkeys.length_eq
      simpa using this
    by_cases h1 : es.length = 1
    · have h1' : es'.length = 1 := by omega
      match es, es', h1, h1' with
      | [(k, x)], [(k', y)], _, _ =>
        have hk : k = k' := by simpa using hkeys
        subst hk
        have hxy := hsame k x y (by simp) (by simp)
        have hl := h k x y (by simp) (by simp)
        cases hxy with
        | obj m m' _ _ => rw [arrayLines_wrapper, arrayLines_wrapper, hl.1]
        | null => rfl
        | scalar s => rfl
        | arr xs ys _ _ =>
          rw [arrayLines, arrayLines]
          rw [printArray_single_other k _ (fun m hm => by cases hm),
            printArray_single_other k _ (fun m hm => by cases hm)]
    · have h1' : es'.length ≠ 1 := by omega
      rw [arrayLines_block es h1, arrayLines_block es' h1', hdata]
  · intro k d pfx i
    rw [entryLines_obj, entryLines_obj, hdata]

theorem wellFormed_arr_mem {xs : List Value} (h : WellFormed (.arr xs)) :
    ∀ x ∈ xs, WellFormed x := by
  cases h with
  | arr _ h => exact h

theorem wellFormed_obj {es : List (String × Value)} (h : WellFormed (.obj es)) :
    NodupKeys es ∧ ∀ e ∈ es, WellFormed e.2 := by
  cases h with
  | obj _ hnd h => exact ⟨hnd, h⟩

theorem sameLines_of_sameJSON (a b : Value) (hab : SameJSON a b) :
    WellFormed a → WellFormed b → SameLines a b := by
  induction hab with
  | null => exact fun _ _ => ⟨fun _ _ _ => rfl, fun _ _ _ => rfl, fun _ _ _ _ => rfl⟩
  | scalar x => exact fun _ _ => ⟨fun _ _ _ => rfl, fun _ _ _ => rfl, fun _ _ _ _ => rfl⟩
  | arr xs ys hlen _ ih =>
    intro hxs hys
    have hdata : ∀ (d : Nat) (pfx i : String), arrayLines xs d pfx i = arrayLines ys d pfx i := by
      intro d pfx i
      refine arrayLines_congr d pfx i xs ys hlen (fun n x y hx hy => ?_)
      exact (ih n x y hx hy (wellFormed_arr_mem hxs x (List.getElem?_mem hx))
        (wellFormed_arr_mem hys y (List.getElem?_mem hy))).2.1 d pfx i
    refine ⟨hdata, fun d pfx i => ?_, fun k d pfx i => ?_⟩
    · rw [arrayLines_arr, arrayLines_arr, hdata]
    · rw [entryLines_arr, entryLines_arr, hdata]
  | obj es es' hkeys hsame ih =>
    intro hes hes'
    obtain ⟨hnd, hwf⟩ := wellFormed_obj hes
    obtain ⟨hnd', hwf'⟩ := wellFormed_obj hes'
    exact sameLines_obj es es' hnd hnd' hkeys hsame
      (fun k x y hx hy => ih k x y hx hy (hwf _ hx) (hwf' _ hy))

/-- A well-formed tree is the same JSON value as itself. -/
theorem sameJSON_refl : ∀ a, WellFormed a → SameJSON a a := by
  refine Value.induct ?_ ?_ ?_ ?_
  · exact fun _ => SameJSON.null
  · exact fun x _ => SameJSON.scalar x
  · intro xs ih hwf
    refine SameJSON.arr xs xs rfl (fun n x y hx hy => ?_)
    have hxy : x = y := Option.some.inj (hx.symm.trans hy)
    subst hxy
    exact ih x (List.getElem?_mem hx) (wellFormed_arr_mem hwf x (List.getElem?_mem hx))
  · intro es ih hwf
    obtain ⟨hnd, hw⟩ := wellFormed_obj hwf
    refine SameJSON.obj es es (List.Perm.refl _) (fun k x y hx hy => ?_)
    have hxy := value_unique_of_nodupKeys es hnd k x y hx hy
    subst hxy
    exact ih (k, x) hx (hw _ hx)

/-- A map is the same JSON value in every order of its entries. -/
theorem sameJSON_of_perm (es es' : List (String × Value)) (hperm : es.Perm es')
    (hwf : WellFormed (.obj es)) : SameJSON (.obj es) (.obj es') := by
  obtain ⟨hnd, hw⟩ := wellFormed_obj hwf
  refine SameJSON.obj es es' (hperm.map Prod.fst) (fun k x y hx hy => ?_)
  have hxy := value_unique_of_nodupKeys es hnd k x y hx (hperm.symm.subset hy)
  subst hxy
  exact sameJSON_refl x (hw _ hx)

/-- C14. The rendering is a function of the content of the tree. Two well-formed trees that
are the same JSON value (maps compared as mappings from key to value at every level,
whatever the order in which their entries are stored or iterated) give the same result of
`Print` on every sink, for every tag and indent unit, hence byte-identical text for both
valid tags; a tree is the same JSON value as itself, and a map with its entries in another
order is the same JSON value, so rendering the same tree again gives the same bytes. -/
theorem render_depends_on_content {σ : Type} (a b : Value) (hab : SameJSON a b)
    (ha : WellFormed a) (hb : WellFormed b) (operationTag indentStr : String)
    (w : Writer σ) (s : σ) :
    Print a operationTag indentStr w s = Print b operationTag indentStr w s
    ∧ Print a "create" indentStr buffer "" = Print b "create" indentStr buffer ""
    ∧ Print a "destroy" indentStr buffer "" = Print b "destroy" indentStr buffer ""
    ∧ (∀ (d : Nat) (pfx : String),
        printData a d pfx indentStr w s = printData b d pfx indentStr w s)
    ∧ SameJSON a a
    ∧ (∀ es es' : List (String × Value), a = .obj es → es.Perm es' →
        SameJSON a (.obj es')
        ∧ Print (.obj es') operationTag indentStr w s = Print a operationTag indentStr w s) := by
  have key : ∀ (x y : Value), SameJSON x y → WellFormed x → WellFormed y →
      ∀ (τ : Type) (u : Writer τ) (t : τ) (d : Nat) (pfx : String),
        printData x d pfx indentStr u t = printData y d pfx indentStr u t := by
    intro x y hxy hx hy τ u t d pfx
    rw [printData_frame, printData_frame y, (sameLines_of_sameJSON x y hxy hx hy).1]
  have hprint : ∀ (x y : Value), SameJSON x y → WellFormed x → WellFormed y →
      ∀ (τ : Type) (u : Writer τ) (t : τ) (tag : String),
        Print x tag indentStr u t = Print y tag indentStr u t := by
    intro x y hxy hx hy τ u t tag
    by_cases h1 : tag = "create"
    · subst h1
      rw [Print_create, Print_create]
      exact key x y hxy hx hy τ u t 0 _
    · by_cases h2 : tag = "destroy"
      · subst h2
        rw [Print_destroy, Print_destroy]
        exact key x y hxy hx hy τ u t 0 _
      · rw [Print, if_neg h1, if_neg h2, Print, if_neg h1, if_neg h2]
  refine ⟨hprint a b hab ha hb σ w s operationTag, hprint a b hab ha hb _ buffer "" "create",
    hprint a b hab ha hb _ buffer "" "destroy", fun d pfx => key a b hab ha hb σ w s d pfx,
    sameJSON_refl a ha, ?_⟩
  intro es es' hes hperm
  subst hes
  have hsame := sameJSON_of_perm es es' hperm ha
  obtain ⟨hnd, hw⟩ := wellFormed_obj ha
  have hwf' : WellFormed (.obj es') :=
    WellFormed.obj es' ((hperm.map Prod.fst).nodup_iff.1 hnd)
      (fun e he => hw e (hperm.symm.subset he))
  exact ⟨hsame, (hprint _ _ hsame ha hwf' σ w s operationTag).symm⟩

/-- Witness of C14: `{"b": 2, "a": {"y": null, "x": 1}}` stored in two orders at both
levels. -/
theorem render_depends_on_content_witness :
    Print (.obj [("b", Value.nat 2), ("a", .obj [("y", .null), ("x", Value.nat 1)])])
        "create" "    " buffer ""
      = Print (.obj [("a", .obj [("x", Value.nat 1), ("y", .null)]), ("b", Value.nat 2)])
        "create" "    " buffer "" :=
  have hin1 : WellFormed (.obj [("y", .null), ("x", Value.nat 1)]) :=
    WellFormed.obj _ (by unfold NodupKeys; decide) (by
      intro e he
      simp only [List.mem_cons, List.mem_singleton, List.not_mem_nil, or_false] at he
      rcases he with rfl | rfl
      · exact WellFormed.null
      · exact WellFormed.scalar _)
  have hin2 : WellFormed (.obj [("x", Value.nat 1), ("y", .null)]) :=
    WellFormed.obj _ (by unfold NodupKeys; decide) (by
      intro e he
      simp only [List.mem_cons, List.mem_singleton, List.not_mem_nil, or_false] at he
      rcases he with rfl | rfl
      · exact WellFormed.scalar _
      · exact WellFormed.null)
  have ha : WellFormed (.obj [("b", Value.nat 2),
      ("a", .obj [("y", .null), ("x", Value.nat 1)])]) :=
    WellFormed.obj _ (by unfold NodupKeys; decide) (by
      intro e he
      simp only [List.mem_cons, List.mem_singleton, List.not_mem_nil, or_false] at he
      rcases he with rfl | rfl
      · exact WellFormed.scalar _
      · exact hin1)
  have hb : WellFormed (.obj [("a", .obj [("x", Value.nat 1), ("y", .null)]),
      ("b", Value.nat 2)]) :=
    WellFormed.obj _ (by unfold NodupKeys; decide) (by
      intro e he
      simp only [List.mem_cons, List.mem_singleton, List.not_mem_nil, or_false] at he
      rcases he with rfl | rfl
      · exact hin2
      · exact WellFormed.scalar _)
  have hin : SameJSON (.obj [("y", .null), ("x", Value.nat 1)])
      (.obj [("x", Value.nat 1), ("y", .null)]) :=
    sameJSON_of_perm _ _ (List.Perm.swap _ _ _) hin1
  have hab : SameJSON
      (.obj [("b", Value.nat 2), ("a", .obj [("y", .null), ("x", Value.nat 1)])])
      (.obj [("a", .obj [("x", Value.nat 1), ("y", .null)]), ("b", Value.nat 2)]) :=
    SameJSON.obj _ _ (List.Perm.swap _ _ _) (by
      intro k x y hx hy
      simp only [List.mem_cons, List.mem_singleton, List.not_mem_nil, or_false,
        Prod.mk.injEq] at hx hy
      rcases hx with ⟨rfl, rfl⟩ | ⟨rfl, rfl⟩ <;> rcases hy with ⟨h, rfl⟩ | ⟨h, rfl⟩
      · exact absurd h (by decide)
      · exact SameJSON.scalar _
      · exact hin
      · exact absurd h (by decide))
  (render_depends_on_content _ _ hab ha hb "create" "    " buffer "").1

end Terrafactor
